import Mathlib

/-
Verification of a multi-level set-associative cache simulator with a
stride prefetcher (sources: Cache.cpp / Cache.h / MainMulCache.cpp).

Modelling conventions:
- Machine integers (uint8/uint32/uint64) are modelled as `Nat`.  All
  counters in the source are write-only statistics or a monotone
  reference counter; no claim under scrutiny depends on wraparound
  (runs are far shorter than 2^32 accesses), so the counters are
  unbounded naturals.  Where the source performs genuine 32-bit bit
  manipulation (address masks, the int64-to-uint32 conversion in the
  prefetcher) the 2^32 arithmetic is explicit.
- `std::vector` block storage and per-block byte buffers are modelled
  as total functions from `Nat`; the source's index ranges are kept in
  every loop.
- Fatal `exit(-1)` branches are modelled with the `Except` monad over
  `SimErr`.
- The lower cache level / backing memory a cache talks to is abstracted
  as a `LowerIface`; the source's `lowerCache == nullptr` dichotomy is
  recovered by instantiating it with `memIface` (raw memory) or
  `cacheIface` (another cache level).  A concrete three-level hierarchy
  is built by nesting `cacheIface`.
-/

namespace CacheSim

/-- Fatal error exits of the simulator (`exit(-1)` sites in the source). -/
inductive SimErr where
  | invalidPolicy
  | inconsistentId
  | dataNotInTop
  deriving DecidableEq, Repr

/-- Decidable equality for `Except` results, used to evaluate concrete
runs. -/
def exceptDecEq [DecidableEq ε] [DecidableEq α] :
    (x y : Except ε α) → Decidable (x = y)
  | .ok a, .ok b =>
    if h : a = b then .isTrue (by subst h; rfl)
    else .isFalse (fun he => h (by injection he))
  | .error a, .error b =>
    if h : a = b then .isTrue (by subst h; rfl)
    else .isFalse (fun he => h (by injection he))
  | .ok _, .error _ => .isFalse (fun he => by injection he)
  | .error _, .ok _ => .isFalse (fun he => by injection he)

instance [DecidableEq ε] [DecidableEq α] : DecidableEq (Except ε α) :=
  exceptDecEq

/-- Backing memory: byte content per address (`MemoryManager`'s paged
storage, pages zero-initialized; page bookkeeping does not affect byte
values and is not modelled). -/
def Mem : Type := Nat → Nat

/-- Cache configuration (struct `Cache::Policy`). -/
structure Policy where
  cacheSize : Nat
  blockSize : Nat
  blockNum : Nat
  associativity : Nat
  hitLatency : Nat
  missLatency : Nat
  deriving DecidableEq, Repr

/-- One cache block slot (struct `Cache::Block`); `data` is the byte
buffer of length `size`, modelled as a total function. -/
structure Block where
  valid : Bool
  modified : Bool
  tag : Nat
  id : Nat
  size : Nat
  lastReference : Nat
  data : Nat → Nat

/-- Per-level statistics (struct `Cache::Statistics`). -/
structure Statistics where
  numRead : Nat
  numWrite : Nat
  numHit : Nat
  numMiss : Nat
  totalCycles : Nat
  deriving DecidableEq, Repr

/-- The mutable state of one cache level (class `Cache`). -/
structure Cache where
  referenceCounter : Nat
  writeBack : Bool
  writeAllocate : Bool
  policy : Policy
  blocks : Nat → Block
  statistics : Statistics

/-- Pointwise update of a function-modelled buffer (an assignment
`v[i] = x` in the source). -/
def updF (f : Nat → Nat) (i v : Nat) : Nat → Nat :=
  fun j => if j = i then v else f j

/-- Pointwise update of the block table (an assignment `blocks[i] = b`). -/
def updB (f : Nat → Block) (i : Nat) (b : Block) : Nat → Block :=
  fun j => if j = i then b else f j

/-- Interface of the next lower level (either another `Cache` via
`lowerCache->getByte`/`setByte` or raw memory via
`memory->getByteNoCache`/`setByteNoCache`). -/
structure LowerIface (σ : Type) where
  getB : σ → Nat → Option Nat → Bool → Except SimErr (Nat × σ × Option Nat)
  setB : σ → Nat → Nat → Except SimErr σ

/-- Raw memory as a lower level: `memory->getByteNoCache(i)` plus the
`if (cycles) *cycles += 100` charge from the fill loop, and
`memory->setByteNoCache`. -/
def memIface : LowerIface Mem where
  getB := fun m a cy _ => .ok (m a, m, cy.map (fun k => k + 100))
  setB := fun m a v => .ok (updF m a v)

/-- `Cache::isPowerOfTwo`: `n > 0 && (n & (n - 1)) == 0`. -/
def isPowerOfTwo (n : Nat) : Bool :=
  decide (n > 0) && (n &&& (n - 1) == 0)

/-- The shift loop of `Cache::log2i`
(`while (val > 1) { val >>= 1; ret++ }`), written with a structural
fuel parameter; any `fuel ≥ val` is enough for the loop to run to
completion. -/
def log2Loop : Nat → Nat → Nat
  | 0, _ => 0
  | f + 1, val => if val > 1 then log2Loop f (val >>> 1) + 1 else 0

/-- `Cache::log2i`; for `val = 0` the source returns `uint32_t(-1)`. -/
def log2i (val : Nat) : Nat :=
  if val = 0 then 4294967295 else log2Loop val val

/-- `Cache::isPolicyValid`: the five checks, in source order. -/
def isPolicyValid (p : Policy) : Bool :=
  isPowerOfTwo p.cacheSize &&
  isPowerOfTwo p.blockSize &&
  (p.cacheSize % p.blockSize == 0) &&
  (p.blockNum * p.blockSize == p.cacheSize) &&
  (p.blockNum % p.associativity == 0)

/-- Offset bit count of a policy (`log2i(blockSize)`). -/
def offsetBits (p : Policy) : Nat := log2i p.blockSize

/-- Set-index bit count of a policy (`log2i(blockNum / associativity)`). -/
def idBits (p : Policy) : Nat := log2i (p.blockNum / p.associativity)

/-- `Cache::getTag`. -/
def getTag (p : Policy) (addr : Nat) : Nat :=
  (addr >>> (offsetBits p + idBits p)) &&& ((1 <<< (32 - offsetBits p - idBits p)) - 1)

/-- `Cache::getId`. -/
def getId (p : Policy) (addr : Nat) : Nat :=
  (addr >>> offsetBits p) &&& ((1 <<< idBits p) - 1)

/-- `Cache::getOffset`. -/
def getOffset (p : Policy) (addr : Nat) : Nat :=
  addr &&& ((1 <<< offsetBits p) - 1)

/-- `Cache::getAddr`: reconstruct the base address of a block from its
tag and set id. -/
def getAddr (p : Policy) (b : Block) : Nat :=
  (b.tag <<< (offsetBits p + idBits p)) ||| (b.id <<< offsetBits p)

/-- The block-aligned base `addr & ~(blockSize - 1)` from
`loadBlockFromLowerLevel`; on uint32, `~(blockSize - 1)` is
`2^32 - blockSize` (valid policies have `blockSize ≥ 1`). -/
def blockBase (p : Policy) (addr : Nat) : Nat :=
  addr &&& (2 ^ 32 - p.blockSize)

/-- `Cache::initCache`: every slot invalid, unmodified, `id = i / associativity`,
zeroed data. -/
def initCache (p : Policy) : Nat → Block :=
  fun i =>
    { valid := false
      modified := false
      tag := 0
      id := i / p.associativity
      size := p.blockSize
      lastReference := 0
      data := fun _ => 0 }

/-- Fresh cache state as the constructor leaves it (zeroed statistics,
zero reference counter). -/
def initState (p : Policy) (wb wa : Bool) : Cache :=
  { referenceCounter := 0
    writeBack := wb
    writeAllocate := wa
    policy := p
    blocks := initCache p
    statistics := ⟨0, 0, 0, 0, 0⟩ }

/-- `Cache::Cache`: validate the policy (fatal on violation), then
initialize. -/
def mkCache (p : Policy) (wb wa : Bool) : Except SimErr Cache :=
  if isPolicyValid p then .ok (initState p wb wa) else .error .invalidPolicy

/-- The scan loop of `Cache::getBlockId` over the listed slot indices:
fatal if a visited slot's stored id disagrees with the set index,
otherwise the first valid slot with a matching tag. -/
def getBlockIdAux (blocks : Nat → Block) (id tag : Nat) :
    List Nat → Except SimErr (Option Nat)
  | [] => .ok none
  | i :: rest =>
    if (blocks i).id ≠ id then .error .inconsistentId
    else if (blocks i).valid && (blocks i).tag == tag then .ok (some i)
    else getBlockIdAux blocks id tag rest

/-- `Cache::getBlockId`: scan positions `[id*assoc, (id+1)*assoc)`;
`none` models the `-1` sentinel. -/
def getBlockId (c : Cache) (addr : Nat) : Except SimErr (Option Nat) :=
  let tag := getTag c.policy addr
  let id := getId c.policy addr
  getBlockIdAux c.blocks id tag
    (List.range' (id * c.policy.associativity)
      ((id + 1) * c.policy.associativity - id * c.policy.associativity))

/-- `Cache::inCache`. -/
def inCache (c : Cache) (addr : Nat) : Except SimErr Bool :=
  (getBlockId c addr).map Option.isSome

/-- The LRU scan of `Cache::getReplacementBlockId`: running
`(resultId, minReference)` pair, updated on strict decrease. -/
def lruScan (blocks : Nat → Block) : List Nat → Nat × Nat → Nat × Nat
  | [], p => p
  | i :: rest, (r, m) =>
    if (blocks i).lastReference < m then lruScan blocks rest (i, (blocks i).lastReference)
    else lruScan blocks rest (r, m)

/-- `Cache::getReplacementBlockId`: first invalid slot in `[b, e)` if
any, else the LRU scan started at `(b, UINT32_MAX)`. -/
def getReplacementBlockId (blocks : Nat → Block) (b e : Nat) : Nat :=
  match (List.range' b (e - b)).find? (fun i => !(blocks i).valid) with
  | some i => i
  | none => (lruScan blocks (List.range' b (e - b)) (b, 4294967295)).1

/-- The fill loop of `loadBlockFromLowerLevel`: for each listed address
`i`, read one byte through the lower interface and store it at
`data[i - base]`. -/
def readBytes (L : LowerIface σ) (s : σ) (cy : Option Nat) (pf : Bool)
    (base : Nat) (data : Nat → Nat) :
    List Nat → Except SimErr ((Nat → Nat) × σ × Option Nat)
  | [] => .ok (data, s, cy)
  | i :: rest => do
    let (v, s1, cy1) ← L.getB s i cy pf
    readBytes L s1 cy1 pf base (updF data (i - base) v) rest

/-- The byte loop of `Cache::writeBlockToLowerLevel`: write
`data[i]` to `addrBegin + i` for each listed `i`. -/
def writeBytes (L : LowerIface σ) (base : Nat) (data : Nat → Nat) :
    σ → List Nat → Except SimErr σ
  | s, [] => .ok s
  | s, i :: rest => do
    let s1 ← L.setB s (base + i) (data i)
    writeBytes L base data s1 rest

/-- `Cache::writeBlockToLowerLevel`: propagate all `b.size` bytes of a
block to the lower level, starting at `getAddr(b)`. -/
def writeBlockToLowerLevel (L : LowerIface σ) (p : Policy) (s : σ) (b : Block) :
    Except SimErr σ :=
  writeBytes L (getAddr p b) b.data s (List.range b.size)

/-- `Cache::loadBlockFromLowerLevel`.  Note the source's fill loop runs
over `[blockAddrBegin, blockAddrBegin + 1)` — a single byte.  The
source leaves `newBlock.lastReference` uninitialized; both callers
overwrite it right after the fill, and it is modelled as 0. -/
def loadBlockFromLowerLevel (L : LowerIface σ) (c : Cache) (s : σ)
    (addr : Nat) (cy : Option Nat) (pf : Bool) :
    Except SimErr (Cache × σ × Option Nat) := do
  let blockSize := c.policy.blockSize
  let blockAddrBegin := blockBase c.policy addr
  let (data, s, cy) ← readBytes L s cy pf blockAddrBegin (fun _ => 0)
    (List.range' blockAddrBegin (blockAddrBegin + 1 - blockAddrBegin))
  let newBlock : Block :=
    { valid := true
      modified := false
      tag := getTag c.policy addr
      id := getId c.policy addr
      size := blockSize
      lastReference := 0
      data := data }
  let id := getId c.policy addr
  let blockIdBegin := id * c.policy.associativity
  let blockIdEnd := (id + 1) * c.policy.associativity
  let replaceId := getReplacementBlockId c.blocks blockIdBegin blockIdEnd
  let replaceBlock := c.blocks replaceId
  let (c, s) ←
    if c.writeBack && replaceBlock.valid && replaceBlock.modified then do
      let s ← writeBlockToLowerLevel L c.policy s replaceBlock
      pure ({ c with statistics :=
        { c.statistics with totalCycles := c.statistics.totalCycles + c.policy.missLatency } }, s)
    else pure (c, s)
  pure ({ c with blocks := updB c.blocks replaceId newBlock }, s, cy)

/-- `Cache::getByte`.  `cy` models the optional `uint32_t *cycles`
out-parameter, `pf` the `is_prefetch` flag. -/
def getByte (L : LowerIface σ) (c : Cache) (s : σ) (addr : Nat)
    (cy : Option Nat) (pf : Bool) :
    Except SimErr (Nat × Cache × σ × Option Nat) := do
  let c := { c with referenceCounter := c.referenceCounter + 1 }
  let c := if pf then c else
    { c with statistics := { c.statistics with numRead := c.statistics.numRead + 1 } }
  match ← getBlockId c addr with
  | some blockId =>
    let offset := getOffset c.policy addr
    let c := { c with statistics :=
      { c.statistics with numHit := c.statistics.numHit + 1 } }
    let c := { c with statistics :=
      { c.statistics with totalCycles := c.statistics.totalCycles + c.policy.hitLatency } }
    let b1 := { c.blocks blockId with lastReference := c.referenceCounter }
    let c := { c with blocks := updB c.blocks blockId b1 }
    pure ((c.blocks blockId).data offset, c, s, cy.map (fun _ => c.policy.hitLatency))
  | none => do
    let c := if pf then c else
      { c with statistics :=
        { c.statistics with
            numMiss := c.statistics.numMiss + 1
            totalCycles := c.statistics.totalCycles + c.policy.missLatency } }
    let (c, s, cy) ← loadBlockFromLowerLevel L c s addr cy pf
    match ← getBlockId c addr with
    | some blockId =>
      let b1 := { c.blocks blockId with lastReference := c.referenceCounter }
      let c := { c with blocks := updB c.blocks blockId b1 }
      pure ((c.blocks blockId).data (getOffset c.policy addr), c, s, cy)
    | none => .error .dataNotInTop

/-- `Cache::setByte`. -/
def setByte (L : LowerIface σ) (c : Cache) (s : σ) (addr val : Nat)
    (cy : Option Nat) :
    Except SimErr (Cache × σ × Option Nat) := do
  let c := { c with referenceCounter := c.referenceCounter + 1 }
  let c := { c with statistics :=
    { c.statistics with numWrite := c.statistics.numWrite + 1 } }
  match ← getBlockId c addr with
  | some blockId =>
    let offset := getOffset c.policy addr
    let c := { c with statistics :=
      { c.statistics with numHit := c.statistics.numHit + 1 } }
    let c := { c with statistics :=
      { c.statistics with totalCycles := c.statistics.totalCycles + c.policy.hitLatency } }
    let b1 := { c.blocks blockId with
      modified := true
      lastReference := c.referenceCounter
      data := updF (c.blocks blockId).data offset val }
    let c := { c with blocks := updB c.blocks blockId b1 }
    if c.writeBack then
      pure (c, s, cy.map (fun _ => c.policy.hitLatency))
    else do
      let s ← writeBlockToLowerLevel L c.policy s (c.blocks blockId)
      let c := { c with statistics :=
        { c.statistics with totalCycles := c.statistics.totalCycles + c.policy.missLatency } }
      pure (c, s, cy.map (fun _ => c.policy.hitLatency))
  | none => do
    let c := { c with statistics :=
      { c.statistics with
          numMiss := c.statistics.numMiss + 1
          totalCycles := c.statistics.totalCycles + c.policy.missLatency } }
    if c.writeAllocate then do
      let (c, s, cy) ← loadBlockFromLowerLevel L c s addr cy false
      match ← getBlockId c addr with
      | some blockId =>
        let b1 := { c.blocks blockId with
          modified := true
          lastReference := c.referenceCounter
          data := updF (c.blocks blockId).data (getOffset c.policy addr) val }
        let c := { c with blocks := updB c.blocks blockId b1 }
        pure (c, s, cy)
      | none => .error .dataNotInTop
    else do
      let s ← L.setB s addr val
      pure (c, s, cy)

/-- Lift a cache level (plus whatever sits below it) to a lower-level
interface for the level above (`lowerCache->getByte` / `->setByte`;
the `setByte` call in the source uses the defaulted null cycles
pointer). -/
def cacheIface (L : LowerIface σ) : LowerIface (Cache × σ) where
  getB := fun cs a cy pf =>
    (getByte L cs.1 cs.2 a cy pf).map (fun r => (r.1, (r.2.1, r.2.2.1), r.2.2.2))
  setB := fun cs a v =>
    (setByte L cs.1 cs.2 a v none).map (fun r => (r.1, r.2.1))

/-- A single cache access for property statements: a (possibly
prefetch) read or a demand write, always with a null cycles pointer
as in the driver. -/
inductive MemOp where
  | rd (addr : Nat) (pf : Bool)
  | wr (addr : Nat) (val : Nat)
  deriving DecidableEq, Repr

/-- Run a sequence of accesses against one cache level and its lower
levels. -/
def runOps (L : LowerIface σ) : List MemOp → Cache × σ → Except SimErr (Cache × σ)
  | [], cs => .ok cs
  | .rd a pf :: rest, (c, s) => do
    let r ← getByte L c s a none pf
    runOps L rest (r.2.1, r.2.2.1)
  | .wr a v :: rest, (c, s) => do
    let r ← setByte L c s a v none
    runOps L rest (r.1, r.2.1)

/-- Run a sequence of reads, each an address plus prefetch flag. -/
def runReads (L : LowerIface σ) : List (Nat × Bool) → Cache × σ → Except SimErr (Cache × σ)
  | [], cs => .ok cs
  | (a, pf) :: rest, (c, s) => do
    let r ← getByte L c s a none pf
    runReads L rest (r.2.1, r.2.2.1)

/-- State of the driver's stride-prefetch controller
(`last_addr`, `stride`, `is_prefetch`, `same_stride_count`,
`diff_stride_count` in `MainMulCache.cpp`). -/
structure PfState where
  lastAddr : Nat
  stride : Int
  pfOn : Bool
  sameStrideCount : Nat
  diffStrideCount : Nat
  deriving DecidableEq, Repr

/-- Initial controller state. -/
def pfInit : PfState := ⟨0, 0, false, 0, 0⟩

/-- A trace record: `r <addr>` or `w <addr>`. -/
inductive TraceOp where
  | r (addr : Nat)
  | w (addr : Nat)
  deriving DecidableEq, Repr

/-- Address of a trace record. -/
def addrOf : TraceOp → Nat
  | .r a => a
  | .w a => a

/-- Modelled from the spec: the demand path of a trace event.  The
`MemoryManager` translation unit is not in the sources; per the spec
("Each event is applied to the top-level cache", with the memory
holding a back-reference to the top cache), `memory->getByte(addr)` /
`memory->setByte(addr, 0)` route to the top-level cache's
`getByte`/`setByte` with a null cycles pointer; page bookkeeping does
not affect byte values or statistics. -/
def demandOp (L : LowerIface σ) (cs : Cache × σ) : TraceOp → Except SimErr (Cache × σ)
  | .r a => do
    let g ← getByte L cs.1 cs.2 a none false
    pure (g.2.1, g.2.2.1)
  | .w a => do
    let r ← setByte L cs.1 cs.2 a 0 none
    pure (r.1, r.2.1)

/-- The driver's prefetch-address computation
`uint32_t prefetch_addr = addr + i * stride` (int64 arithmetic
converted to uint32). -/
def prefetchAddr (addr : Nat) (i : Nat) (stride : Int) : Nat :=
  (((addr : Int) + (i : Int) * stride).emod (2 ^ 32)).toNat

/-- One prefetch issue from the driver: skip when resident in the top
level, otherwise a prefetch-flagged `getByte`. -/
def issueOne (L : LowerIface σ) (cs : Cache × σ) (pa : Nat) :
    Except SimErr (Cache × σ) := do
  let present ← inCache cs.1 pa
  if present then pure cs
  else do
    let g ← getByte L cs.1 cs.2 pa none true
    pure (g.2.1, g.2.2.1)

/-- The driver's prefetch loop over the listed multipliers `i`. -/
def issueMany (L : LowerIface σ) (addr : Nat) (stride : Int) :
    Cache × σ → List Nat → Except SimErr (Cache × σ)
  | cs, [] => .ok cs
  | cs, i :: rest => do
    let cs1 ← issueOne L cs (prefetchAddr addr i stride)
    issueMany L addr stride cs1 rest

/-- One iteration of the driver loop in `MainMulCache.cpp`: the demand
access, then the stride-controller update with its prefetch issues. -/
def pfStep (L : LowerIface σ) (cs : Cache × σ) (p : PfState) (op : TraceOp) :
    Except SimErr ((Cache × σ) × PfState) := do
  let a := addrOf op
  let cs ← demandOp L cs op
  let newStride : Int := (a : Int) - (p.lastAddr : Int)
  if !p.pfOn then
    let stride := if newStride == p.stride then p.stride else newStride
    let same := if newStride == p.stride then p.sameStrideCount + 1 else 1
    if same ≥ 3 then do
      let cs ← issueMany L a stride cs [1, 2, 3]
      pure (cs, ⟨a, stride, true, same, 0⟩)
    else
      pure (cs, ⟨a, stride, false, same, p.diffStrideCount⟩)
  else
    if newStride == p.stride then do
      let cs ← issueMany L a p.stride cs [1, 2]
      pure (cs, ⟨a, p.stride, true, p.sameStrideCount, 0⟩)
    else
      let d := p.diffStrideCount + 1
      if d > 3 then
        pure (cs, ⟨a, newStride, false, 1, d⟩)
      else
        pure (cs, ⟨a, p.stride, true, p.sameStrideCount, d⟩)

/-- The driver loop with the stride-prefetch controller. -/
def runPf (L : LowerIface σ) : List TraceOp → (Cache × σ) × PfState →
    Except SimErr ((Cache × σ) × PfState)
  | [], st => .ok st
  | op :: rest, (cs, p) => do
    runPf L rest (← pfStep L cs p op)

/-- The driver loop with the controller disabled: demand accesses only. -/
def runNoPf (L : LowerIface σ) : List TraceOp → Cache × σ → Except SimErr (Cache × σ)
  | [], cs => .ok cs
  | op :: rest, cs => do
    runNoPf L rest (← demandOp L cs op)

/-- L1 policy from the driver: 16 KiB, 64-byte blocks, direct-mapped,
hit 1, miss 0. -/
def l1policy : Policy := ⟨16 * 1024, 64, 16 * 1024 / 64, 1, 1, 0⟩

/-- L2 policy from the driver: 128 KiB, 64-byte blocks, 8-way, hit 8,
miss 0. -/
def l2policy : Policy := ⟨128 * 1024, 64, 128 * 1024 / 64, 8, 8, 0⟩

/-- L3 policy from the driver: 2 MiB, 64-byte blocks, 16-way, hit 20,
miss 100. -/
def l3policy : Policy := ⟨2 * 1024 * 1024, 64, 2 * 1024 * 1024 / 64, 16, 20, 100⟩

/-- Zero-initialized memory. -/
def mem0 : Mem := fun _ => 0

/-- The driver's hierarchy state: L1 on top of L2 on top of L3 on top
of memory, all write-back + write-allocate. -/
def hierInit : Cache × (Cache × (Cache × Mem)) :=
  (initState l1policy true true,
    (initState l2policy true true, (initState l3policy true true, mem0)))

/-- The lower interface seen by the driver's L1: L2 backed by L3
backed by memory. -/
def hierL : LowerIface (Cache × (Cache × Mem)) := cacheIface (cacheIface memIface)

/-! ### Structural helper lemmas -/

theorem updF_self (f : Nat → Nat) (i v : Nat) : updF f i v i = v := by
  simp [updF]

theorem updF_other (f : Nat → Nat) (i v j : Nat) (h : j ≠ i) : updF f i v j = f j := by
  simp [updF, h]

theorem updB_self (f : Nat → Block) (i : Nat) (b : Block) : updB f i b i = b := by
  simp [updB]

theorem updB_other (f : Nat → Block) (i : Nat) (b : Block) (j : Nat) (h : j ≠ i) :
    updB f i b j = f j := by
  simp [updB, h]

theorem updB_updB (f : Nat → Block) (i : Nat) (a b : Block) :
    updB (updB f i a) i b = updB f i b := by
  funext j
  by_cases h : j = i <;> simp [updB, h]

/-! ### Lookup window lemmas -/

/-- The slot index list scanned by `getBlockId` for an address. -/
def windowOf (c : Cache) (addr : Nat) : List Nat :=
  List.range' (getId c.policy addr * c.policy.associativity)
    ((getId c.policy addr + 1) * c.policy.associativity -
      getId c.policy addr * c.policy.associativity)

theorem getBlockId_def (c : Cache) (addr : Nat) :
    getBlockId c addr =
      getBlockIdAux c.blocks (getId c.policy addr) (getTag c.policy addr) (windowOf c addr) :=
  rfl

theorem windowOf_eq (c : Cache) (addr : Nat) :
    windowOf c addr =
      List.range' (getId c.policy addr * c.policy.associativity) c.policy.associativity := by
  unfold windowOf
  congr 1
  rw [Nat.succ_mul]
  omega

theorem mem_windowOf {c : Cache} {addr i : Nat} :
    i ∈ windowOf c addr ↔
      getId c.policy addr * c.policy.associativity ≤ i ∧
        i < getId c.policy addr * c.policy.associativity + c.policy.associativity := by
  rw [windowOf_eq]
  exact List.mem_range'_1

theorem assoc_pos_of_mem_window {c : Cache} {addr i : Nat} (h : i ∈ windowOf c addr) :
    0 < c.policy.associativity := by
  rcases mem_windowOf.1 h with ⟨h1, h2⟩
  omega

theorem div_of_mem_window {c : Cache} {addr i : Nat} (h : i ∈ windowOf c addr) :
    i / c.policy.associativity = getId c.policy addr := by
  have ha : 0 < c.policy.associativity := assoc_pos_of_mem_window h
  rcases mem_windowOf.1 h with ⟨h1, h2⟩
  obtain ⟨k, hk, rfl⟩ :
      ∃ k, k < c.policy.associativity ∧ i = c.policy.associativity * getId c.policy addr + k := by
    refine ⟨i - getId c.policy addr * c.policy.associativity, by omega, by
      rw [Nat.mul_comm]; omega⟩
  rw [Nat.mul_add_div ha, Nat.div_eq_of_lt hk]
  omega

/-! ### Characterizations of the lookup scan -/

theorem getBlockIdAux_ok_none {blocks : Nat → Block} {id tag : Nat} (l : List Nat) :
    getBlockIdAux blocks id tag l = .ok none ↔
      ∀ i ∈ l, (blocks i).id = id ∧ ¬((blocks i).valid = true ∧ (blocks i).tag = tag) := by
  induction l with
  | nil => simp [getBlockIdAux]
  | cons i rest ih =>
    simp only [getBlockIdAux]
    by_cases h1 : (blocks i).id = id
    · by_cases h2 : ((blocks i).valid && (blocks i).tag == tag) = true
      · rw [if_neg (by simp [h1]), if_pos h2]
        simp only [Bool.and_eq_true, beq_iff_eq] at h2
        constructor
        · intro h
          exact absurd h (by simp)
        · intro h
          exact absurd h2 (h i (by simp)).2
      · rw [if_neg (by simp [h1]), if_neg h2, ih]
        simp only [Bool.and_eq_true, beq_iff_eq] at h2
        constructor
        · intro h
          intro j hj
          rcases List.mem_cons.1 hj with rfl | hj
          · exact ⟨h1, h2⟩
          · exact h j hj
        · intro h j hj
          exact h j (List.mem_cons_of_mem _ hj)
    · rw [if_pos (by simp [h1])]
      constructor
      · intro h
        exact absurd h (by simp)
      · intro h
        exact absurd (h i (by simp)).1 h1

theorem getBlockIdAux_ok_some {blocks : Nat → Block} {id tag : Nat} :
    ∀ {l : List Nat} {j : Nat}, getBlockIdAux blocks id tag l = .ok (some j) →
      j ∈ l ∧ (blocks j).id = id ∧ (blocks j).valid = true ∧ (blocks j).tag = tag := by
  intro l
  induction l with
  | nil => intro j h; exact absurd h (by simp [getBlockIdAux])
  | cons i rest ih =>
    intro j h
    simp only [getBlockIdAux] at h
    by_cases h1 : (blocks i).id = id
    · by_cases h2 : ((blocks i).valid && (blocks i).tag == tag) = true
      · rw [if_neg (by simp [h1]), if_pos h2] at h
        have hj : i = j := by
          have := h
          simp at this
          exact this
        subst hj
        simp only [Bool.and_eq_true, beq_iff_eq] at h2
        exact ⟨by simp, h1, h2.1, h2.2⟩
      · rw [if_neg (by simp [h1]), if_neg h2] at h
        rcases ih h with ⟨hm, h3, h4, h5⟩
        exact ⟨List.mem_cons_of_mem _ hm, h3, h4, h5⟩
    · rw [if_pos (by simp [h1])] at h
      exact absurd h (by simp)

theorem getBlockIdAux_congr {blocks blocks2 : Nat → Block} {id tag : Nat} :
    ∀ {l : List Nat}, (∀ i ∈ l, blocks2 i = blocks i) →
      getBlockIdAux blocks2 id tag l = getBlockIdAux blocks id tag l := by
  intro l
  induction l with
  | nil => intro _; rfl
  | cons i rest ih =>
    intro h
    simp only [getBlockIdAux, h i (by simp)]
    split
    · rfl
    · split
      · rfl
      · exact ih (fun j hj => h j (List.mem_cons_of_mem _ hj))

theorem getBlockIdAux_update_preserve {blocks : Nat → Block} {id tag j : Nat} {b : Block}
    (hid : b.id = (blocks j).id) (hval : b.valid = (blocks j).valid)
    (htag : b.tag = (blocks j).tag) :
    ∀ {l : List Nat}, getBlockIdAux blocks id tag l = .ok (some j) →
      getBlockIdAux (updB blocks j b) id tag l = .ok (some j) := by
  intro l
  induction l with
  | nil => intro h; exact absurd h (by simp [getBlockIdAux])
  | cons i rest ih =>
    intro h
    simp only [getBlockIdAux] at h ⊢
    by_cases hij : i = j
    · subst hij
      rw [updB_self]
      rw [hid, hval, htag]
      by_cases h1 : (blocks i).id = id
      · by_cases h2 : ((blocks i).valid && (blocks i).tag == tag) = true
        · rw [if_neg (by simp [h1]), if_pos h2] at h ⊢
        · rw [if_neg (by simp [h1]), if_neg h2] at h ⊢
          rcases getBlockIdAux_ok_some h with ⟨_, _, h4, h5⟩
          exact absurd (show ((blocks i).valid && (blocks i).tag == tag) = true by
            simp [h4, h5]) h2
      · rw [if_pos (by simp [h1])] at h
        exact absurd h (by simp)
    · rw [updB_other _ _ _ _ hij]
      by_cases h1 : (blocks i).id = id
      · by_cases h2 : ((blocks i).valid && (blocks i).tag == tag) = true
        · rw [if_neg (by simp [h1]), if_pos h2] at h ⊢
          exact h
        · rw [if_neg (by simp [h1]), if_neg h2] at h ⊢
          exact ih h
      · rw [if_pos (by simp [h1])] at h
        exact absurd h (by simp)

theorem getBlockIdAux_install {blocks : Nat → Block} {id tag j : Nat} {b : Block}
    (hid : b.id = id) (hval : b.valid = true) (htag : b.tag = tag) :
    ∀ {l : List Nat}, getBlockIdAux blocks id tag l = .ok none → j ∈ l →
      getBlockIdAux (updB blocks j b) id tag l = .ok (some j) := by
  intro l
  induction l with
  | nil => intro _ hm; exact absurd hm (by simp)
  | cons i rest ih =>
    intro h hm
    have hrest := (getBlockIdAux_ok_none (i :: rest)).1 h
    simp only [getBlockIdAux]
    by_cases hij : i = j
    · subst hij
      rw [updB_self]
      rw [if_neg (by simp [hid]), if_pos (by simp [hval, htag])]
    · rw [updB_other _ _ _ _ hij]
      rcases hrest i (by simp) with ⟨h1, h2⟩
      rw [if_neg (by simp [h1]), if_neg (by
        simp only [Bool.and_eq_true, beq_iff_eq]
        intro hcon
        exact h2 hcon)]
      refine ih ?_ ?_
      · exact (getBlockIdAux_ok_none rest).2 (fun k hk => hrest k (List.mem_cons_of_mem _ hk))
      · rcases List.mem_cons.1 hm with rfl | hm2
        · exact absurd rfl hij
        · exact hm2

/-! ### Replacement-choice membership -/

theorem lruScan_fst {blocks : Nat → Block} :
    ∀ (l : List Nat) (r m : Nat),
      (lruScan blocks l (r, m)).1 = r ∨ (lruScan blocks l (r, m)).1 ∈ l := by
  intro l
  induction l with
  | nil => intro r m; left; rfl
  | cons i rest ih =>
    intro r m
    simp only [lruScan]
    split
    · rcases ih i (blocks i).lastReference with h | h
      · right; simp [h]
      · right; exact List.mem_cons_of_mem _ h
    · rcases ih r m with h | h
      · left; exact h
      · right; exact List.mem_cons_of_mem _ h

theorem getReplacementBlockId_mem {blocks : Nat → Block} {b e : Nat} (h : b < e) :
    b ≤ getReplacementBlockId blocks b e ∧ getReplacementBlockId blocks b e < e := by
  cases hf : (List.range' b (e - b)).find? (fun i => !(blocks i).valid) with
  | some i =>
    have heq : getReplacementBlockId blocks b e = i := by
      unfold getReplacementBlockId
      rw [hf]
    have hm := List.mem_of_find?_eq_some hf
    rw [List.mem_range'_1] at hm
    omega
  | none =>
    have heq : getReplacementBlockId blocks b e =
        (lruScan blocks (List.range' b (e - b)) (b, 4294967295)).1 := by
      unfold getReplacementBlockId
      rw [hf]
    rw [heq]
    rcases @lruScan_fst blocks (List.range' b (e - b)) b 4294967295 with h1 | h1
    · rw [h1]; omega
    · rw [List.mem_range'_1] at h1
      omega

theorem replIdOf_helper (c : Cache) (addr : Nat) (ha : 0 < c.policy.associativity) :
    getReplacementBlockId c.blocks (getId c.policy addr * c.policy.associativity)
        ((getId c.policy addr + 1) * c.policy.associativity) ∈ windowOf c addr := by
  have hs : (getId c.policy addr + 1) * c.policy.associativity =
      getId c.policy addr * c.policy.associativity + c.policy.associativity :=
    Nat.succ_mul _ _
  have hlt : getId c.policy addr * c.policy.associativity <
      (getId c.policy addr + 1) * c.policy.associativity := by omega
  have hmem := @getReplacementBlockId_mem c.blocks _ _ hlt
  rw [mem_windowOf]
  omega

/-! ### The fill operation, characterized -/

/-- The block descriptor installed by a fill whose single-byte read
returned `v`: tag/id of the requested address, a zeroed data buffer
with only byte 0 filled in. -/
def newBlockOf (p : Policy) (addr v : Nat) : Block :=
  { valid := true
    modified := false
    tag := getTag p addr
    id := getId p addr
    size := p.blockSize
    lastReference := 0
    data := updF (fun _ => 0) 0 v }

/-- The victim slot a fill for `addr` overwrites. -/
def replIdOf (c : Cache) (addr : Nat) : Nat :=
  getReplacementBlockId c.blocks (getId c.policy addr * c.policy.associativity)
    ((getId c.policy addr + 1) * c.policy.associativity)

/-- Whether the fill's victim triggers a write-back
(`writeBack && replaceBlock.valid && replaceBlock.modified`). -/
def dirtyVictim (c : Cache) (addr : Nat) : Bool :=
  c.writeBack && (c.blocks (replIdOf c addr)).valid && (c.blocks (replIdOf c addr)).modified

theorem replIdOf_mem_window (c : Cache) (addr : Nat) (ha : 0 < c.policy.associativity) :
    replIdOf c addr ∈ windowOf c addr :=
  replIdOf_helper c addr ha

@[simp]
theorem bindOk (a : α) (f : α → Except SimErr β) : (Except.ok a >>= f) = f a := rfl

@[simp]
theorem bindErr (e : SimErr) (f : α → Except SimErr β) :
    ((Except.error e : Except SimErr α) >>= f) = .error e := rfl

@[simp]
theorem pureOk (a : α) : (pure a : Except SimErr α) = .ok a := rfl

@[simp]
theorem mapOk (a : α) (f : α → β) : (Except.ok a : Except SimErr α).map f = .ok (f a) := rfl

@[simp]
theorem mapErr (e : SimErr) (f : α → β) :
    (Except.error e : Except SimErr α).map f = .error e := rfl

theorem loadBlock_eq (L : LowerIface σ) (c : Cache) (s : σ) (addr : Nat) (cy : Option Nat)
    (pf : Bool) (v : Nat) (s1 : σ) (cy1 : Option Nat)
    (hget : L.getB s (blockBase c.policy addr) cy pf = .ok (v, s1, cy1)) :
    loadBlockFromLowerLevel L c s addr cy pf =
      if dirtyVictim c addr then
        (writeBlockToLowerLevel L c.policy s1 (c.blocks (replIdOf c addr))).map
          (fun s2 =>
            ({ c with
                blocks := updB c.blocks (replIdOf c addr) (newBlockOf c.policy addr v)
                statistics := { c.statistics with
                  totalCycles := c.statistics.totalCycles + c.policy.missLatency } }, s2, cy1))
      else
        .ok ({ c with blocks := updB c.blocks (replIdOf c addr) (newBlockOf c.policy addr v) },
          s1, cy1) := by
  have hrange : blockBase c.policy addr + 1 - blockBase c.policy addr = 1 := by omega
  have hlist : List.range' (blockBase c.policy addr)
      (blockBase c.policy addr + 1 - blockBase c.policy addr) = [blockBase c.policy addr] := by
    rw [hrange]
    rfl
  unfold loadBlockFromLowerLevel
  dsimp only
  rw [hlist]
  simp only [readBytes, hget, bindOk, Nat.sub_self]
  unfold dirtyVictim replIdOf newBlockOf
  split
  · cases hw : writeBlockToLowerLevel L c.policy s1
        (c.blocks (getReplacementBlockId c.blocks
          (getId c.policy addr * c.policy.associativity)
          ((getId c.policy addr + 1) * c.policy.associativity))) with
    | ok s2 => simp [hw, Except.map]
    | error e => simp [hw, Except.map]
  · rfl

/-! ### Step equations for getByte / setByte -/

@[simp]
theorem getBlockId_mk (rc : Nat) (wb wa : Bool) (p : Policy) (bl : Nat → Block)
    (st : Statistics) (addr : Nat) :
    getBlockId ⟨rc, wb, wa, p, bl, st⟩ addr =
      getBlockIdAux bl (getId p addr) (getTag p addr)
        (List.range' (getId p addr * p.associativity)
          ((getId p addr + 1) * p.associativity - getId p addr * p.associativity)) := rfl

/-- The state of a cache right after the demand-miss accounting of
`getByte` (reference counter bumped; `numRead`, `numMiss`,
`totalCycles` bumped unless the access is a prefetch). -/
def missState (c : Cache) (pf : Bool) : Cache :=
  { c with
    referenceCounter := c.referenceCounter + 1
    statistics := { c.statistics with
      numRead := c.statistics.numRead + (if pf then 0 else 1)
      numMiss := c.statistics.numMiss + (if pf then 0 else 1)
      totalCycles := c.statistics.totalCycles + (if pf then 0 else c.policy.missLatency) } }

theorem getByte_hit_eq (L : LowerIface σ) (c : Cache) (s : σ) (addr : Nat) (cy : Option Nat)
    (pf : Bool) (j : Nat) (hj : getBlockId c addr = .ok (some j)) :
    getByte L c s addr cy pf =
      .ok ((c.blocks j).data (getOffset c.policy addr),
        { c with
          referenceCounter := c.referenceCounter + 1
          blocks := updB c.blocks j { c.blocks j with lastReference := c.referenceCounter + 1 }
          statistics := { c.statistics with
            numRead := c.statistics.numRead + (if pf then 0 else 1)
            numHit := c.statistics.numHit + 1
            totalCycles := c.statistics.totalCycles + c.policy.hitLatency } },
        s, cy.map (fun _ => c.policy.hitLatency)) := by
  have hA : getBlockIdAux c.blocks (getId c.policy addr) (getTag c.policy addr)
      (List.range' (getId c.policy addr * c.policy.associativity)
        ((getId c.policy addr + 1) * c.policy.associativity -
          getId c.policy addr * c.policy.associativity)) = .ok (some j) := hj
  cases pf <;>
    simp [getByte, hA, updB_self]

theorem getByte_miss_eq (L : LowerIface σ) (c : Cache) (s : σ) (addr : Nat) (cy : Option Nat)
    (pf : Bool) (hnone : getBlockId c addr = .ok none) :
    getByte L c s addr cy pf =
      (loadBlockFromLowerLevel L (missState c pf) s addr cy pf) >>= fun r =>
        (getBlockId r.1 addr) >>= fun ob =>
          match ob with
          | some blockId =>
            let b2 := { r.1.blocks blockId with lastReference := r.1.referenceCounter }
            .ok (((updB r.1.blocks blockId b2) blockId).data (getOffset r.1.policy addr),
              { r.1 with blocks := updB r.1.blocks blockId b2 },
              r.2.1, r.2.2)
          | none => .error .dataNotInTop := by
  have hA : getBlockIdAux c.blocks (getId c.policy addr) (getTag c.policy addr)
      (List.range' (getId c.policy addr * c.policy.associativity)
        ((getId c.policy addr + 1) * c.policy.associativity -
          getId c.policy addr * c.policy.associativity)) = .ok none := hnone
  cases pf <;>
  · simp only [getByte, missState, getBlockId_mk, hA, bindOk, Bool.false_eq_true, if_false,
      if_true, Nat.add_zero, cond_false, cond_true, Bool.if_false_left, ite_false, ite_true]
    apply congrArg
    funext r
    rcases r with ⟨c2, s2, cy2⟩
    rfl

theorem setByte_hit_eq (L : LowerIface σ) (c : Cache) (s : σ) (addr val : Nat) (cy : Option Nat)
    (j : Nat) (hj : getBlockId c addr = .ok (some j)) :
    setByte L c s addr val cy =
      (if c.writeBack then
        .ok ({ c with
            referenceCounter := c.referenceCounter + 1
            blocks := updB c.blocks j
              { c.blocks j with
                modified := true
                lastReference := c.referenceCounter + 1
                data := updF (c.blocks j).data (getOffset c.policy addr) val }
            statistics := { c.statistics with
              numWrite := c.statistics.numWrite + 1
              numHit := c.statistics.numHit + 1
              totalCycles := c.statistics.totalCycles + c.policy.hitLatency } },
          s, cy.map (fun _ => c.policy.hitLatency))
      else
        (writeBlockToLowerLevel L c.policy s
            { c.blocks j with
              modified := true
              lastReference := c.referenceCounter + 1
              data := updF (c.blocks j).data (getOffset c.policy addr) val }).map
          (fun s2 =>
            ({ c with
              referenceCounter := c.referenceCounter + 1
              blocks := updB c.blocks j
                { c.blocks j with
                  modified := true
                  lastReference := c.referenceCounter + 1
                  data := updF (c.blocks j).data (getOffset c.policy addr) val }
              statistics := { c.statistics with
                numWrite := c.statistics.numWrite + 1
                numHit := c.statistics.numHit + 1
                totalCycles := c.statistics.totalCycles + c.policy.hitLatency +
                  c.policy.missLatency } },
            s2, cy.map (fun _ => c.policy.hitLatency)))) := by
  have hA : getBlockIdAux c.blocks (getId c.policy addr) (getTag c.policy addr)
      (List.range' (getId c.policy addr * c.policy.associativity)
        ((getId c.policy addr + 1) * c.policy.associativity -
          getId c.policy addr * c.policy.associativity)) = .ok (some j) := hj
  by_cases hwb : c.writeBack = true
  · simp [setByte, hA, hwb, updB_self]
  · simp only [Bool.not_eq_true] at hwb
    cases hw : writeBlockToLowerLevel L c.policy s
        { c.blocks j with
          modified := true
          lastReference := c.referenceCounter + 1
          data := updF (c.blocks j).data (getOffset c.policy addr) val } with
    | ok s2 => simp [setByte, hA, hwb, updB_self, hw]
    | error e => simp [setByte, hA, hwb, updB_self, hw]

/-- The state of a cache right after the miss accounting of `setByte`. -/
def missStateW (c : Cache) : Cache :=
  { c with
    referenceCounter := c.referenceCounter + 1
    statistics := { c.statistics with
      numWrite := c.statistics.numWrite + 1
      numMiss := c.statistics.numMiss + 1
      totalCycles := c.statistics.totalCycles + c.policy.missLatency } }

theorem setByte_missAlloc_eq (L : LowerIface σ) (c : Cache) (s : σ) (addr val : Nat)
    (cy : Option Nat) (hnone : getBlockId c addr = .ok none) (hwa : c.writeAllocate = true) :
    setByte L c s addr val cy =
      (loadBlockFromLowerLevel L (missStateW c) s addr cy false) >>= fun r =>
        (getBlockId r.1 addr) >>= fun ob =>
          match ob with
          | some blockId =>
            let b2 := { r.1.blocks blockId with
              modified := true
              lastReference := r.1.referenceCounter
              data := updF (r.1.blocks blockId).data (getOffset r.1.policy addr) val }
            .ok ({ r.1 with blocks := updB r.1.blocks blockId b2 }, r.2.1, r.2.2)
          | none => .error .dataNotInTop := by
  have hA : getBlockIdAux c.blocks (getId c.policy addr) (getTag c.policy addr)
      (List.range' (getId c.policy addr * c.policy.associativity)
        ((getId c.policy addr + 1) * c.policy.associativity -
          getId c.policy addr * c.policy.associativity)) = .ok none := hnone
  simp only [setByte, missStateW, getBlockId_mk, hA, bindOk, hwa, ite_true]
  apply congrArg
  funext r
  rcases r with ⟨c2, s2, cy2⟩
  rfl

theorem setByte_missNoAlloc_eq (L : LowerIface σ) (c : Cache) (s : σ) (addr val : Nat)
    (cy : Option Nat) (hnone : getBlockId c addr = .ok none)
    (hwa : c.writeAllocate = false) :
    setByte L c s addr val cy =
      (L.setB s addr val).map (fun s2 => (missStateW c, s2, cy)) := by
  have hA : getBlockIdAux c.blocks (getId c.policy addr) (getTag c.policy addr)
      (List.range' (getId c.policy addr * c.policy.associativity)
        ((getId c.policy addr + 1) * c.policy.associativity -
          getId c.policy addr * c.policy.associativity)) = .ok none := hnone
  cases hw : L.setB s addr val with
  | ok s2 => simp [setByte, missStateW, hA, hwa, hw]
  | error e => simp [setByte, missStateW, hA, hwa, hw]

/-! ### State-projection and congruence lemmas -/

@[simp] theorem missState_policy (c : Cache) (pf : Bool) :
    (missState c pf).policy = c.policy := rfl

@[simp] theorem missState_blocks (c : Cache) (pf : Bool) :
    (missState c pf).blocks = c.blocks := rfl

@[simp] theorem missState_writeBack (c : Cache) (pf : Bool) :
    (missState c pf).writeBack = c.writeBack := rfl

@[simp] theorem missState_writeAllocate (c : Cache) (pf : Bool) :
    (missState c pf).writeAllocate = c.writeAllocate := rfl

@[simp] theorem missState_rc (c : Cache) (pf : Bool) :
    (missState c pf).referenceCounter = c.referenceCounter + 1 := rfl

@[simp] theorem missState_replIdOf (c : Cache) (pf : Bool) (addr : Nat) :
    replIdOf (missState c pf) addr = replIdOf c addr := rfl

@[simp] theorem missState_dirtyVictim (c : Cache) (pf : Bool) (addr : Nat) :
    dirtyVictim (missState c pf) addr = dirtyVictim c addr := rfl

@[simp] theorem missStateW_policy (c : Cache) : (missStateW c).policy = c.policy := rfl

@[simp] theorem missStateW_blocks (c : Cache) : (missStateW c).blocks = c.blocks := rfl

@[simp] theorem missStateW_writeBack (c : Cache) : (missStateW c).writeBack = c.writeBack := rfl

@[simp] theorem missStateW_writeAllocate (c : Cache) :
    (missStateW c).writeAllocate = c.writeAllocate := rfl

@[simp] theorem missStateW_rc (c : Cache) :
    (missStateW c).referenceCounter = c.referenceCounter + 1 := rfl

@[simp] theorem missStateW_replIdOf (c : Cache) (addr : Nat) :
    replIdOf (missStateW c) addr = replIdOf c addr := rfl

@[simp] theorem missStateW_dirtyVictim (c : Cache) (addr : Nat) :
    dirtyVictim (missStateW c) addr = dirtyVictim c addr := rfl

theorem getBlockId_congr {c c2 : Cache} (addr : Nat) (hp : c2.policy = c.policy)
    (hb : ∀ i ∈ windowOf c addr, c2.blocks i = c.blocks i) :
    getBlockId c2 addr = getBlockId c addr := by
  rw [getBlockId_def c2, getBlockId_def c]
  unfold windowOf
  rw [hp]
  exact getBlockIdAux_congr hb

/-- After a fill installs `newBlockOf` into the victim slot of a missing
address, the lookup finds exactly that slot. -/
theorem lookup_install {c : Cache} (addr v : Nat) (hnone : getBlockId c addr = .ok none)
    (ha : 0 < c.policy.associativity) :
    getBlockIdAux (updB c.blocks (replIdOf c addr) (newBlockOf c.policy addr v))
      (getId c.policy addr) (getTag c.policy addr)
      (List.range' (getId c.policy addr * c.policy.associativity)
        ((getId c.policy addr + 1) * c.policy.associativity -
          getId c.policy addr * c.policy.associativity)) =
      .ok (some (replIdOf c addr)) := by
  refine getBlockIdAux_install rfl rfl rfl ?_ ?_
  · exact hnone
  · exact replIdOf_mem_window c addr ha

theorem getByte_lookupError (L : LowerIface σ) (c : Cache) (s : σ) (addr : Nat)
    (cy : Option Nat) (pf : Bool) (e : SimErr) (he : getBlockId c addr = .error e) :
    getByte L c s addr cy pf = .error e := by
  have hA : getBlockIdAux c.blocks (getId c.policy addr) (getTag c.policy addr)
      (List.range' (getId c.policy addr * c.policy.associativity)
        ((getId c.policy addr + 1) * c.policy.associativity -
          getId c.policy addr * c.policy.associativity)) = .error e := he
  cases pf <;> simp [getByte, hA]

theorem setByte_lookupError (L : LowerIface σ) (c : Cache) (s : σ) (addr val : Nat)
    (cy : Option Nat) (e : SimErr) (he : getBlockId c addr = .error e) :
    setByte L c s addr val cy = .error e := by
  have hA : getBlockIdAux c.blocks (getId c.policy addr) (getTag c.policy addr)
      (List.range' (getId c.policy addr * c.policy.associativity)
        ((getId c.policy addr + 1) * c.policy.associativity -
          getId c.policy addr * c.policy.associativity)) = .error e := he
  simp [setByte, hA]

theorem loadBlock_getB_error (L : LowerIface σ) (c : Cache) (s : σ) (addr : Nat)
    (cy : Option Nat) (pf : Bool) (e : SimErr)
    (hg : L.getB s (blockBase c.policy addr) cy pf = .error e) :
    loadBlockFromLowerLevel L c s addr cy pf = .error e := by
  have hrange : blockBase c.policy addr + 1 - blockBase c.policy addr = 1 := by omega
  have hlist : List.range' (blockBase c.policy addr)
      (blockBase c.policy addr + 1 - blockBase c.policy addr) = [blockBase c.policy addr] := by
    rw [hrange]
    rfl
  unfold loadBlockFromLowerLevel
  dsimp only
  rw [hlist]
  simp [readBytes, hg]

theorem loadBlock_inv {L : LowerIface σ} {c : Cache} {s : σ} {addr : Nat} {cy : Option Nat}
    {pf : Bool} {c2 : Cache} {s2 : σ} {cy2 : Option Nat}
    (h : loadBlockFromLowerLevel L c s addr cy pf = .ok (c2, s2, cy2)) :
    ∃ w s1 cy1, L.getB s (blockBase c.policy addr) cy pf = .ok (w, s1, cy1) ∧
      cy2 = cy1 ∧
      c2 = { c with
        blocks := updB c.blocks (replIdOf c addr) (newBlockOf c.policy addr w)
        statistics := { c.statistics with
          totalCycles := c.statistics.totalCycles +
            (if dirtyVictim c addr then c.policy.missLatency else 0) } } ∧
      (dirtyVictim c addr = true →
        writeBlockToLowerLevel L c.policy s1 (c.blocks (replIdOf c addr)) = .ok s2) ∧
      (dirtyVictim c addr = false → s2 = s1) := by
  cases hg : L.getB s (blockBase c.policy addr) cy pf with
  | error e =>
    rw [loadBlock_getB_error L c s addr cy pf e hg] at h
    exact absurd h (by simp)
  | ok r =>
    rcases r with ⟨w, s1, cy1⟩
    rw [loadBlock_eq L c s addr cy pf w s1 cy1 hg] at h
    refine ⟨w, s1, cy1, rfl, ?_⟩
    cases hd : dirtyVictim c addr with
    | true =>
      rw [if_pos (by rw [hd])] at h
      cases hw : writeBlockToLowerLevel L c.policy s1 (c.blocks (replIdOf c addr)) with
      | error e =>
        rw [hw] at h
        exact absurd h (by simp [Except.map])
      | ok s3 =>
        rw [hw] at h
        simp only [mapOk, Except.ok.injEq, Prod.mk.injEq] at h
        rcases h with ⟨hc, hs, hcy⟩
        subst hc
        subst hs
        subst hcy
        refine ⟨rfl, by simp [hd], fun _ => rfl, by simp [hd]⟩
    | false =>
      rw [if_neg (by rw [hd]; exact Bool.false_ne_true)] at h
      simp only [Except.ok.injEq, Prod.mk.injEq] at h
      rcases h with ⟨hc, hs, hcy⟩
      subst hc
      subst hs
      subst hcy
      refine ⟨rfl, ?_, by simp [hd], fun _ => rfl⟩
      simp [hd]

/-! ### Full inversion of getByte -/

theorem getByte_inv {L : LowerIface σ} {c : Cache} {s : σ} {addr : Nat} {cy : Option Nat}
    {pf : Bool} {v : Nat} {c2 : Cache} {s2 : σ} {cy2 : Option Nat}
    (h : getByte L c s addr cy pf = .ok (v, c2, s2, cy2)) :
    c2.policy = c.policy ∧ c2.writeBack = c.writeBack ∧ c2.writeAllocate = c.writeAllocate ∧
    c2.referenceCounter = c.referenceCounter + 1 ∧
    c2.statistics.numRead = c.statistics.numRead + (if pf then 0 else 1) ∧
    c2.statistics.numWrite = c.statistics.numWrite ∧
    ((∃ j, getBlockId c addr = .ok (some j) ∧
        c2.statistics.numHit = c.statistics.numHit + 1 ∧
        c2.statistics.numMiss = c.statistics.numMiss ∧
        c2.statistics.totalCycles = c.statistics.totalCycles + c.policy.hitLatency ∧
        c2.blocks = updB c.blocks j { c.blocks j with lastReference := c.referenceCounter + 1 } ∧
        v = (c.blocks j).data (getOffset c.policy addr) ∧ s2 = s ∧
        cy2 = cy.map (fun _ => c.policy.hitLatency)) ∨
      (getBlockId c addr = .ok none ∧
        0 < c.policy.associativity ∧
        c2.statistics.numHit = c.statistics.numHit ∧
        c2.statistics.numMiss = c.statistics.numMiss + (if pf then 0 else 1) ∧
        c2.statistics.totalCycles =
          c.statistics.totalCycles + (if pf then 0 else c.policy.missLatency) +
            (if dirtyVictim c addr then c.policy.missLatency else 0) ∧
        ∃ w s1 cy1, L.getB s (blockBase c.policy addr) cy pf = .ok (w, s1, cy1) ∧
          c2.blocks = updB c.blocks (replIdOf c addr)
            { newBlockOf c.policy addr w with lastReference := c.referenceCounter + 1 } ∧
          v = (newBlockOf c.policy addr w).data (getOffset c.policy addr) ∧
          cy2 = cy1 ∧
          (dirtyVictim c addr = true →
            writeBlockToLowerLevel L c.policy s1 (c.blocks (replIdOf c addr)) = .ok s2) ∧
          (dirtyVictim c addr = false → s2 = s1))) := by
  cases hb : getBlockId c addr with
  | error e =>
    rw [getByte_lookupError L c s addr cy pf e hb] at h
    exact absurd h (by simp)
  | ok ob =>
    cases ob with
    | some j =>
      rw [getByte_hit_eq L c s addr cy pf j hb] at h
      simp only [Except.ok.injEq, Prod.mk.injEq] at h
      rcases h with ⟨hv, hc, hs, hcy⟩
      subst hv
      subst hc
      subst hs
      subst hcy
      exact ⟨rfl, rfl, rfl, rfl, rfl, rfl,
        Or.inl ⟨j, rfl, rfl, rfl, rfl, rfl, rfl, rfl, rfl⟩⟩
    | none =>
      rw [getByte_miss_eq L c s addr cy pf hb] at h
      cases hl : loadBlockFromLowerLevel L (missState c pf) s addr cy pf with
      | error e =>
        rw [hl] at h
        exact absurd h (by simp)
      | ok r =>
        rcases r with ⟨cm, sm, cym⟩
        rw [hl] at h
        simp only [bindOk] at h
        rcases loadBlock_inv hl with ⟨w, s1, cy1, hg, hcy1, hcm, hdt, hdf⟩
        subst hcm
        simp only [missState_policy, missState_blocks, missState_rc, missState_replIdOf,
          missState_dirtyVictim] at hg hdt hdf
        by_cases ha : 0 < c.policy.associativity
        · have hlook := lookup_install addr w hb ha
          simp only [getBlockId_mk, missState_blocks, missState_policy,
            missState_replIdOf] at h
          rw [hlook] at h
          simp only [bindOk] at h
          simp only [Except.ok.injEq, Prod.mk.injEq] at h
          obtain ⟨hv, hc, hs, hcy⟩ := h
          subst hv
          subst hc
          subst hs
          subst hcy
          refine ⟨rfl, rfl, rfl, rfl, rfl, rfl,
            Or.inr ⟨rfl, ha, rfl, rfl, rfl, w, s1, cy1, hg, ?_, ?_, hcy1, hdt, hdf⟩⟩
          · simp [updB_self, updB_updB, missState_rc]
          · simp [updB_self]
        · exfalso
          have hassoc : c.policy.associativity = 0 := by omega
          have hwin : (getId c.policy addr + 1) * c.policy.associativity -
              getId c.policy addr * c.policy.associativity = 0 := by
            simp [hassoc]
          simp only [getBlockId_mk, missState_blocks, missState_policy, missState_replIdOf,
            hwin, List.range'_zero, getBlockIdAux, bindOk] at h
          simp at h

/-! ### Full inversion of setByte -/

theorem setByte_inv {L : LowerIface σ} {c : Cache} {s : σ} {addr val : Nat} {cy : Option Nat}
    {c2 : Cache} {s2 : σ} {cy2 : Option Nat}
    (h : setByte L c s addr val cy = .ok (c2, s2, cy2)) :
    c2.policy = c.policy ∧ c2.writeBack = c.writeBack ∧ c2.writeAllocate = c.writeAllocate ∧
    c2.referenceCounter = c.referenceCounter + 1 ∧
    c2.statistics.numRead = c.statistics.numRead ∧
    c2.statistics.numWrite = c.statistics.numWrite + 1 ∧
    ((∃ j, getBlockId c addr = .ok (some j) ∧
        c2.statistics.numHit = c.statistics.numHit + 1 ∧
        c2.statistics.numMiss = c.statistics.numMiss ∧
        c2.statistics.totalCycles = c.statistics.totalCycles + c.policy.hitLatency +
          (if c.writeBack then 0 else c.policy.missLatency) ∧
        c2.blocks = updB c.blocks j
          { c.blocks j with
            modified := true
            lastReference := c.referenceCounter + 1
            data := updF (c.blocks j).data (getOffset c.policy addr) val } ∧
        cy2 = cy.map (fun _ => c.policy.hitLatency) ∧
        (c.writeBack = true → s2 = s) ∧
        (c.writeBack = false →
          writeBlockToLowerLevel L c.policy s
            { c.blocks j with
              modified := true
              lastReference := c.referenceCounter + 1
              data := updF (c.blocks j).data (getOffset c.policy addr) val } = .ok s2)) ∨
      (getBlockId c addr = .ok none ∧
        c2.statistics.numHit = c.statistics.numHit ∧
        c2.statistics.numMiss = c.statistics.numMiss + 1 ∧
        ((c.writeAllocate = true ∧
          0 < c.policy.associativity ∧
          c2.statistics.totalCycles = c.statistics.totalCycles + c.policy.missLatency +
            (if dirtyVictim c addr then c.policy.missLatency else 0) ∧
          ∃ w s1 cy1, L.getB s (blockBase c.policy addr) cy false = .ok (w, s1, cy1) ∧
            c2.blocks = updB c.blocks (replIdOf c addr)
              { newBlockOf c.policy addr w with
                modified := true
                lastReference := c.referenceCounter + 1
                data := updF (newBlockOf c.policy addr w).data (getOffset c.policy addr) val } ∧
            cy2 = cy1 ∧
            (dirtyVictim c addr = true →
              writeBlockToLowerLevel L c.policy s1 (c.blocks (replIdOf c addr)) = .ok s2) ∧
            (dirtyVictim c addr = false → s2 = s1)) ∨
         (c.writeAllocate = false ∧
          c2.statistics.totalCycles = c.statistics.totalCycles + c.policy.missLatency ∧
          c2.blocks = c.blocks ∧ cy2 = cy ∧ L.setB s addr val = .ok s2)))) := by
  cases hb : getBlockId c addr with
  | error e =>
    rw [setByte_lookupError L c s addr val cy e hb] at h
    exact absurd h (by simp)
  | ok ob =>
    cases ob with
    | some j =>
      rw [setByte_hit_eq L c s addr val cy j hb] at h
      by_cases hwb : c.writeBack = true
      · rw [if_pos hwb] at h
        simp only [Except.ok.injEq, Prod.mk.injEq] at h
        obtain ⟨hc, hs, hcy⟩ := h
        subst hc
        subst hs
        subst hcy
        refine ⟨rfl, rfl, rfl, rfl, rfl, rfl,
          Or.inl ⟨j, rfl, rfl, rfl, ?_, rfl, rfl, fun _ => rfl, ?_⟩⟩
        · simp [hwb]
        · intro hf
          rw [hwb] at hf
          exact absurd hf (by simp)
      · have hwb2 : c.writeBack = false := by
          simpa using hwb
        rw [if_neg hwb] at h
        cases hw : writeBlockToLowerLevel L c.policy s
            { c.blocks j with
              modified := true
              lastReference := c.referenceCounter + 1
              data := updF (c.blocks j).data (getOffset c.policy addr) val } with
        | error e =>
          rw [hw] at h
          exact absurd h (by simp)
        | ok s3 =>
          rw [hw] at h
          simp only [mapOk, Except.ok.injEq, Prod.mk.injEq] at h
          obtain ⟨hc, hs, hcy⟩ := h
          subst hc
          subst hs
          subst hcy
          refine ⟨rfl, rfl, rfl, rfl, rfl, rfl,
            Or.inl ⟨j, rfl, rfl, rfl, ?_, rfl, rfl, ?_, fun _ => hw⟩⟩
          · simp [hwb2]
          · intro ht
            rw [hwb2] at ht
            exact absurd ht (by simp)
    | none =>
      by_cases hwa : c.writeAllocate = true
      · rw [setByte_missAlloc_eq L c s addr val cy hb hwa] at h
        cases hl : loadBlockFromLowerLevel L (missStateW c) s addr cy false with
        | error e =>
          rw [hl] at h
          exact absurd h (by simp)
        | ok r =>
          rcases r with ⟨cm, sm, cym⟩
          rw [hl] at h
          simp only [bindOk] at h
          rcases loadBlock_inv hl with ⟨w, s1, cy1, hg, hcy1, hcm, hdt, hdf⟩
          subst hcm
          simp only [missStateW_policy, missStateW_blocks, missStateW_rc, missStateW_replIdOf,
            missStateW_dirtyVictim] at hg hdt hdf
          by_cases ha : 0 < c.policy.associativity
          · have hlook := lookup_install addr w hb ha
            simp only [getBlockId_mk, missStateW_blocks, missStateW_policy,
              missStateW_replIdOf] at h
            rw [hlook] at h
            simp only [bindOk] at h
            simp only [Except.ok.injEq, Prod.mk.injEq] at h
            obtain ⟨hc, hs, hcy⟩ := h
            subst hc
            subst hs
            subst hcy
            refine ⟨rfl, rfl, rfl, rfl, rfl, rfl,
              Or.inr ⟨rfl, rfl, rfl, Or.inl ⟨hwa, ha, rfl, w, s1, cy1, hg, ?_, hcy1, hdt, hdf⟩⟩⟩
            simp [updB_self, updB_updB]
          · exfalso
            have hassoc : c.policy.associativity = 0 := by omega
            have hwin : (getId c.policy addr + 1) * c.policy.associativity -
                getId c.policy addr * c.policy.associativity = 0 := by
              simp [hassoc]
            simp only [getBlockId_mk, missStateW_blocks, missStateW_policy, missStateW_replIdOf,
              hwin, List.range'_zero, getBlockIdAux, bindOk] at h
            simp at h
      · have hwa2 : c.writeAllocate = false := by
          simpa using hwa
        rw [setByte_missNoAlloc_eq L c s addr val cy hb hwa2] at h
        cases hw : L.setB s addr val with
        | error e =>
          rw [hw] at h
          exact absurd h (by simp)
        | ok s3 =>
          rw [hw] at h
          simp only [mapOk, Except.ok.injEq, Prod.mk.injEq] at h
          obtain ⟨hc, hs, hcy⟩ := h
          subst hc
          subst hs
          subst hcy
          exact ⟨rfl, rfl, rfl, rfl, rfl, rfl,
            Or.inr ⟨rfl, rfl, rfl, Or.inr ⟨hwa2, rfl, rfl, rfl, rfl⟩⟩⟩

/-! ### Residency and set-preservation corollaries -/

theorem getBlockId_structure {c c2 : Cache} (addr : Nat) (hp : c2.policy = c.policy) :
    getBlockId c2 addr =
      getBlockIdAux c2.blocks (getId c.policy addr) (getTag c.policy addr)
        (List.range' (getId c.policy addr * c.policy.associativity)
          ((getId c.policy addr + 1) * c.policy.associativity -
            getId c.policy addr * c.policy.associativity)) := by
  rw [getBlockId_def]
  unfold windowOf
  rw [hp]

theorem mem_window_of_lookup {c : Cache} {addr j : Nat}
    (hj : getBlockId c addr = .ok (some j)) : j ∈ windowOf c addr :=
  (getBlockIdAux_ok_some hj).1

/-- After a successful `setByte` in write-allocate mode, the written
address is resident and its stored byte is the written value. -/
theorem setByte_resident {L : LowerIface σ} {c : Cache} {s : σ} {addr val : Nat}
    {cy : Option Nat} {c2 : Cache} {s2 : σ} {cy2 : Option Nat}
    (hwa : c.writeAllocate = true)
    (h : setByte L c s addr val cy = .ok (c2, s2, cy2)) :
    ∃ j, getBlockId c2 addr = .ok (some j) ∧
      (c2.blocks j).data (getOffset c.policy addr) = val := by
  rcases setByte_inv h with ⟨hp, _, _, _, _, _, hcase⟩
  rcases hcase with ⟨j, hb, _, _, _, hblocks, _, _, _⟩ | ⟨hb, _, _, hsub⟩
  · refine ⟨j, ?_, ?_⟩
    · rw [getBlockId_structure addr hp, hblocks]
      refine getBlockIdAux_update_preserve ?_ ?_ ?_ hb <;> rfl
    · rw [hblocks, updB_self]
      simp [updF_self]
  · rcases hsub with ⟨_, ha, _, w, s1, cy1, _, hblocks, _, _, _⟩ | ⟨hwa2, _⟩
    · refine ⟨replIdOf c addr, ?_, ?_⟩
      · rw [getBlockId_structure addr hp, hblocks]
        refine getBlockIdAux_install ?_ ?_ ?_ hb (replIdOf_mem_window c addr ha) <;> rfl
      · rw [hblocks, updB_self]
        simp [updF_self]
    · rw [hwa] at hwa2
      exact absurd hwa2 (by simp)

/-- After a successful `getByte`, the address is resident. -/
theorem getByte_resident {L : LowerIface σ} {c : Cache} {s : σ} {addr : Nat}
    {cy : Option Nat} {pf : Bool} {v : Nat} {c2 : Cache} {s2 : σ} {cy2 : Option Nat}
    (h : getByte L c s addr cy pf = .ok (v, c2, s2, cy2)) :
    ∃ j, getBlockId c2 addr = .ok (some j) := by
  rcases getByte_inv h with ⟨hp, _, _, _, _, _, hcase⟩
  rcases hcase with ⟨j, hb, _, _, _, hblocks, _, _, _⟩ | ⟨hb, ha, _, _, _, w, s1, cy1, _, hblocks, _, _, _, _⟩
  · refine ⟨j, ?_⟩
    rw [getBlockId_structure addr hp, hblocks]
    refine getBlockIdAux_update_preserve ?_ ?_ ?_ hb <;> rfl
  · refine ⟨replIdOf c addr, ?_⟩
    rw [getBlockId_structure addr hp, hblocks]
    refine getBlockIdAux_install ?_ ?_ ?_ hb (replIdOf_mem_window c addr ha) <;> rfl

/-- A successful `getByte` leaves every slot outside the accessed
address's set window untouched. -/
theorem getByte_preserves_other_sets {L : LowerIface σ} {c : Cache} {s : σ} {addr : Nat}
    {cy : Option Nat} {pf : Bool} {v : Nat} {c2 : Cache} {s2 : σ} {cy2 : Option Nat}
    (h : getByte L c s addr cy pf = .ok (v, c2, s2, cy2)) :
    ∀ i, i / c.policy.associativity ≠ getId c.policy addr → c2.blocks i = c.blocks i := by
  intro i hi
  rcases getByte_inv h with ⟨hp, _, _, _, _, _, hcase⟩
  rcases hcase with ⟨j, hb, _, _, _, hblocks, _, _, _⟩ | ⟨hb, ha, _, _, _, w, s1, cy1, _, hblocks, _, _, _, _⟩
  · have hjw : j ∈ windowOf c addr := mem_window_of_lookup hb
    have hij : i ≠ j := by
      intro hcon
      subst hcon
      exact hi (div_of_mem_window hjw)
    rw [hblocks, updB_other _ _ _ _ hij]
  · have hjw : replIdOf c addr ∈ windowOf c addr := replIdOf_mem_window c addr ha
    have hij : i ≠ replIdOf c addr := by
      intro hcon
      subst hcon
      exact hi (div_of_mem_window hjw)
    rw [hblocks, updB_other _ _ _ _ hij]

/-! ### Write-back byte loop, characterized over raw memory and over a
lower cache -/

theorem writeBytes_append {σ2 : Type} (L : LowerIface σ2) (base : Nat) (data : Nat → Nat) :
    ∀ (l1 l2 : List Nat) (s : σ2),
      writeBytes L base data s (l1 ++ l2) =
        (writeBytes L base data s l1) >>= fun s2 => writeBytes L base data s2 l2 := by
  intro l1
  induction l1 with
  | nil =>
    intro l2 s
    simp [writeBytes]
  | cons i rest ih =>
    intro l2 s
    simp only [List.cons_append, writeBytes]
    cases hw : L.setB s (base + i) (data i) with
    | ok s1 => simp [hw, ih]
    | error e => simp [hw]

theorem writeBytes_range_mem (base : Nat) (data : Nat → Nat) :
    ∀ (n : Nat) (m : Mem), ∃ m2, writeBytes memIface base data m (List.range n) = .ok m2 ∧
      (∀ i, i < n → m2 (base + i) = data i) ∧
      (∀ a, (∀ i, i < n → a ≠ base + i) → m2 a = m a) := by
  intro n
  induction n with
  | zero =>
    intro m
    exact ⟨m, rfl, by omega, fun a _ => rfl⟩
  | succ n ih =>
    intro m
    rcases ih m with ⟨m1, hrun, hin, hout⟩
    refine ⟨updF m1 (base + n) (data n), ?_, ?_, ?_⟩
    · rw [List.range_succ, writeBytes_append, hrun]
      simp [writeBytes, memIface]
    · intro i hi
      by_cases hilt : i < n
      · rw [updF_other _ _ _ _ (by omega)]
        exact hin i hilt
      · have : i = n := by omega
        subst this
        exact updF_self _ _ _
    · intro a ha
      rw [updF_other _ _ _ _ (ha n (by omega))]
      exact hout a (fun i hi => ha i (by omega))

theorem writeBlock_mem (p : Policy) (m : Mem) (b : Block) :
    ∃ m2, writeBlockToLowerLevel memIface p m b = .ok m2 ∧
      (∀ i, i < b.size → m2 (getAddr p b + i) = b.data i) ∧
      (∀ a, (∀ i, i < b.size → a ≠ getAddr p b + i) → m2 a = m a) :=
  writeBytes_range_mem (getAddr p b) b.data b.size m

theorem cacheIface_getB_inv {σ2 : Type} {L2 : LowerIface σ2} {cl : Cache} {s0 : σ2}
    {a : Nat} {cy : Option Nat} {pf : Bool} {w : Nat} {s1 : Cache × σ2} {cy1 : Option Nat}
    (h : (cacheIface L2).getB (cl, s0) a cy pf = .ok (w, s1, cy1)) :
    s1.1.statistics.numWrite = cl.statistics.numWrite := by
  unfold cacheIface at h
  dsimp only at h
  cases hg : getByte L2 cl s0 a cy pf with
  | error e =>
    rw [hg] at h
    exact absurd h (by simp)
  | ok r =>
    rw [hg] at h
    simp only [mapOk, Except.ok.injEq, Prod.mk.injEq] at h
    rcases h with ⟨h1, h2, h3⟩
    rcases r with ⟨w2, c2, s2, cy2⟩
    rcases getByte_inv hg with ⟨_, _, _, _, _, hnw, _⟩
    rw [show s1.1 = c2 from by rw [show s1 = (c2, s2) from h2.symm]]
    exact hnw

theorem writeBytes_numWrite {σ2 : Type} (L2 : LowerIface σ2) (base : Nat) (data : Nat → Nat) :
    ∀ (l : List Nat) (cl : Cache) (s0 : σ2) (res : Cache × σ2),
      writeBytes (cacheIface L2) base data (cl, s0) l = .ok res →
        res.1.statistics.numWrite = cl.statistics.numWrite + l.length := by
  intro l
  induction l with
  | nil =>
    intro cl s0 res h
    simp only [writeBytes, Except.ok.injEq] at h
    rw [h.symm]
    simp
  | cons i rest ih =>
    intro cl s0 res h
    simp only [writeBytes] at h
    cases hw : (cacheIface L2).setB (cl, s0) (base + i) (data i) with
    | error e =>
      rw [hw] at h
      exact absurd h (by simp)
    | ok s1 =>
      rw [hw] at h
      simp only [bindOk] at h
      rcases s1 with ⟨cl1, s01⟩
      have h1 : cl1.statistics.numWrite = cl.statistics.numWrite + 1 := by
        unfold cacheIface at hw
        dsimp only at hw
        cases hs : setByte L2 cl s0 (base + i) (data i) none with
        | error e =>
          rw [hs] at hw
          exact absurd hw (by simp)
        | ok r2 =>
          rcases r2 with ⟨c2, s2, cy2⟩
          rw [hs] at hw
          simp only [mapOk, Except.ok.injEq, Prod.mk.injEq] at hw
          rcases setByte_inv hs with ⟨_, _, _, _, _, hnw, _⟩
          rw [show cl1 = c2 from hw.1.symm]
          exact hnw
      have h2 := ih cl1 s01 res h
      simp only [List.length_cons]
      omega

/-- C1: during a fill, the loop range covers exactly the block-aligned
base address — a single byte — which is the only byte read from the
lower level; the other data bytes of the installed block are zero.
(Stated for a clean victim so that the lower-level state after the fill
is exactly the state after that one read.) -/
theorem fill_single_byte_zero_rest {σ2 : Type} (L : LowerIface σ2) (c : Cache) (s : σ2)
    (addr : Nat) (cy : Option Nat) (pf : Bool) (v : Nat) (s1 : σ2) (cy1 : Option Nat)
    (hget : L.getB s (blockBase c.policy addr) cy pf = .ok (v, s1, cy1))
    (hclean : dirtyVictim c addr = false) :
    List.range' (blockBase c.policy addr)
        (blockBase c.policy addr + 1 - blockBase c.policy addr) = [blockBase c.policy addr] ∧
    loadBlockFromLowerLevel L c s addr cy pf =
      .ok ({ c with blocks := updB c.blocks (replIdOf c addr) (newBlockOf c.policy addr v) },
        s1, cy1) ∧
    (newBlockOf c.policy addr v).data 0 = v ∧
    (∀ j, j ≠ 0 → (newBlockOf c.policy addr v).data j = 0) := by
  refine ⟨?_, ?_, ?_, ?_⟩
  · have h1 : blockBase c.policy addr + 1 - blockBase c.policy addr = 1 := by omega
    rw [h1]
    rfl
  · rw [loadBlock_eq L c s addr cy pf v s1 cy1 hget, hclean]
    simp
  · simp [newBlockOf, updF_self]
  · intro j hj
    simp [newBlockOf, updF, hj]

theorem fill_single_byte_zero_rest_witness :
    memIface.getB mem0 (blockBase (initState ⟨4, 4, 1, 1, 1, 1⟩ true true).policy 5) none
        false = .ok (0, mem0, none) ∧
    dirtyVictim (initState ⟨4, 4, 1, 1, 1, 1⟩ true true) 5 = false ∧
    loadBlockFromLowerLevel memIface (initState ⟨4, 4, 1, 1, 1, 1⟩ true true) mem0 5 none
        false =
      .ok ({ initState ⟨4, 4, 1, 1, 1, 1⟩ true true with
          blocks := updB (initState ⟨4, 4, 1, 1, 1, 1⟩ true true).blocks
            (replIdOf (initState ⟨4, 4, 1, 1, 1, 1⟩ true true) 5)
            (newBlockOf (initState ⟨4, 4, 1, 1, 1, 1⟩ true true).policy 5 0) },
        mem0, none) ∧
    (newBlockOf (initState ⟨4, 4, 1, 1, 1, 1⟩ true true).policy 5 0).data 0 = 0 ∧
    (newBlockOf (initState ⟨4, 4, 1, 1, 1, 1⟩ true true).policy 5 0).data 3 = 0 := by
  have h := fill_single_byte_zero_rest memIface (initState ⟨4, 4, 1, 1, 1, 1⟩ true true)
    mem0 5 none false 0 mem0 none rfl (by decide)
  exact ⟨rfl, by decide, h.2.1, h.2.2.1, h.2.2.2 3 (by decide)⟩

/-- C5: during a fill whose victim is valid and modified under
write-back, every byte of the victim block is propagated to the next
lower level before the slot is reused, at the address reconstructed
from its tag and id, and `missLatency` is charged to `totalCycles`.
With raw memory below, the memory afterwards holds the victim's bytes
at `getAddr(victim) + i`; with another cache level below, that level
receives exactly `size` demand writes (its `numWrite` grows by the
victim's size on top of the fill's read, which adds none). -/
theorem dirty_eviction_writeback (c : Cache) (m : Mem) (addr : Nat) (cy : Option Nat)
    (pf : Bool) (hwb : c.writeBack = true)
    (hv : (c.blocks (replIdOf c addr)).valid = true)
    (hm : (c.blocks (replIdOf c addr)).modified = true) :
    (∃ c2 m2 cy2, loadBlockFromLowerLevel memIface c m addr cy pf = .ok (c2, m2, cy2) ∧
      (∀ i, i < (c.blocks (replIdOf c addr)).size →
        m2 (getAddr c.policy (c.blocks (replIdOf c addr)) + i) =
          (c.blocks (replIdOf c addr)).data i) ∧
      c2.statistics.totalCycles = c.statistics.totalCycles + c.policy.missLatency ∧
      (∀ a, (∀ i, i < (c.blocks (replIdOf c addr)).size →
          a ≠ getAddr c.policy (c.blocks (replIdOf c addr)) + i) → m2 a = m a)) ∧
    (∀ (σ2 : Type) (L2 : LowerIface σ2) (cl : Cache) (s0 : σ2) (nw : Nat),
      (loadBlockFromLowerLevel (cacheIface L2) c (cl, s0) addr cy pf).map
          (fun r => r.2.1.1.statistics.numWrite) = .ok nw →
      nw = cl.statistics.numWrite + (c.blocks (replIdOf c addr)).size) := by
  have hd : dirtyVictim c addr = true := by
    simp [dirtyVictim, hwb, hv, hm]
  constructor
  · have hget : memIface.getB m (blockBase c.policy addr) cy pf =
        .ok (m (blockBase c.policy addr), m, cy.map (fun k => k + 100)) := rfl
    rw [loadBlock_eq memIface c m addr cy pf (m (blockBase c.policy addr)) m
      (cy.map (fun k => k + 100)) hget, hd]
    rcases writeBlock_mem c.policy m (c.blocks (replIdOf c addr)) with ⟨m2, hwrun, hin, hout⟩
    rw [if_pos rfl, hwrun]
    exact ⟨_, m2, _, rfl, hin, rfl, hout⟩
  · intro σ2 L2 cl s0 nw h
    cases hl : loadBlockFromLowerLevel (cacheIface L2) c (cl, s0) addr cy pf with
    | error e =>
      rw [hl] at h
      exact absurd h (by simp)
    | ok r =>
      rw [hl] at h
      simp only [mapOk, Except.ok.injEq] at h
      rcases r with ⟨c2, s2, cy2⟩
      rcases loadBlock_inv hl with ⟨w, s1, cy1, hg, _, _, hdt, _⟩
      rcases s1 with ⟨cl1, s01⟩
      have hnw1 : cl1.statistics.numWrite = cl.statistics.numWrite :=
        cacheIface_getB_inv hg
      have hws := hdt hd
      unfold writeBlockToLowerLevel at hws
      have hnw2 := writeBytes_numWrite L2 (getAddr c.policy (c.blocks (replIdOf c addr)))
        (c.blocks (replIdOf c addr)).data (List.range (c.blocks (replIdOf c addr)).size)
        cl1 s01 s2 hws
      rw [List.length_range] at hnw2
      dsimp only at h
      omega

/-- A one-block cache holding a dirty block, used as a witness state. -/
def cacheDirty : Cache :=
  { initState ⟨1, 1, 1, 1, 1, 7⟩ true true with
    blocks := updB (initCache ⟨1, 1, 1, 1, 1, 7⟩) 0 ⟨true, true, 0, 0, 1, 0, fun _ => 9⟩ }

theorem dirty_eviction_writeback_witness :
    (∃ c2 m2 cy2, loadBlockFromLowerLevel memIface cacheDirty mem0 1 none false =
        .ok (c2, m2, cy2) ∧
      (∀ i, i < (cacheDirty.blocks (replIdOf cacheDirty 1)).size →
        m2 (getAddr cacheDirty.policy (cacheDirty.blocks (replIdOf cacheDirty 1)) + i) =
          (cacheDirty.blocks (replIdOf cacheDirty 1)).data i) ∧
      c2.statistics.totalCycles = cacheDirty.statistics.totalCycles +
        cacheDirty.policy.missLatency ∧
      (∀ a, (∀ i, i < (cacheDirty.blocks (replIdOf cacheDirty 1)).size →
          a ≠ getAddr cacheDirty.policy (cacheDirty.blocks (replIdOf cacheDirty 1)) + i) →
        m2 a = mem0 a)) ∧
    (1 : Nat) = (initState ⟨1, 1, 1, 1, 1, 1⟩ true true).statistics.numWrite +
      (cacheDirty.blocks (replIdOf cacheDirty 1)).size := by
  have h := dirty_eviction_writeback cacheDirty mem0 1 none false (by decide) (by decide)
    (by decide)
  exact ⟨h.1, h.2 Mem memIface (initState ⟨1, 1, 1, 1, 1, 1⟩ true true) mem0 1 (by decide)⟩

/-- C4 (amended): a prefetch-flagged `getByte` never touches `numRead`.
On a hit it increments `numHit`, charges `hitLatency`, and refreshes
the block's `lastReference`.  On a miss it leaves `numRead`, `numMiss`,
and `numHit` unchanged; the fill's single lower-level read carries the
prefetch flag; the filled block's `lastReference` is refreshed; and
`totalCycles` is unchanged *except* that evicting a valid dirty victim
under write-back still charges `missLatency` (the original claim said
totalCycles never changes on a prefetch miss, which the counterexample
refutes). -/
theorem prefetch_access_semantics {σ2 : Type} (L : LowerIface σ2) (c : Cache) (s : σ2)
    (addr : Nat) (cy : Option Nat) :
    (∀ j, getBlockId c addr = .ok (some j) →
      getByte L c s addr cy true =
        .ok ((c.blocks j).data (getOffset c.policy addr),
          { c with
            referenceCounter := c.referenceCounter + 1
            blocks := updB c.blocks j { c.blocks j with lastReference := c.referenceCounter + 1 }
            statistics := { c.statistics with
              numHit := c.statistics.numHit + 1
              totalCycles := c.statistics.totalCycles + c.policy.hitLatency } },
          s, cy.map (fun _ => c.policy.hitLatency))) ∧
    (getBlockId c addr = .ok none → 0 < c.policy.associativity →
      ∀ w s1 cy1, L.getB s (blockBase c.policy addr) cy true = .ok (w, s1, cy1) →
        (dirtyVictim c addr = false →
          getByte L c s addr cy true =
            .ok ((newBlockOf c.policy addr w).data (getOffset c.policy addr),
              { c with
                referenceCounter := c.referenceCounter + 1
                blocks := updB c.blocks (replIdOf c addr)
                  { newBlockOf c.policy addr w with
                    lastReference := c.referenceCounter + 1 } },
              s1, cy1)) ∧
        (dirtyVictim c addr = true →
          ∀ s2, writeBlockToLowerLevel L c.policy s1 (c.blocks (replIdOf c addr)) = .ok s2 →
            getByte L c s addr cy true =
              .ok ((newBlockOf c.policy addr w).data (getOffset c.policy addr),
                { c with
                  referenceCounter := c.referenceCounter + 1
                  blocks := updB c.blocks (replIdOf c addr)
                    { newBlockOf c.policy addr w with
                      lastReference := c.referenceCounter + 1 }
                  statistics := { c.statistics with
                    totalCycles := c.statistics.totalCycles + c.policy.missLatency } },
                s2, cy1))) := by
  constructor
  · intro j hj
    rw [getByte_hit_eq L c s addr cy true j hj]
    simp
  · intro hb ha w s1 cy1 hget
    have hlook := lookup_install addr w hb ha
    constructor
    · intro hclean
      rw [getByte_miss_eq L c s addr cy true hb]
      rw [loadBlock_eq L (missState c true) s addr cy true w s1 cy1 hget]
      rw [missState_dirtyVictim, hclean]
      simp only [Bool.false_eq_true, if_false, bindOk]
      simp only [getBlockId_mk, missState_blocks, missState_policy, missState_replIdOf]
      rw [hlook]
      simp only [bindOk]
      simp [missState, updB_self, updB_updB]
    · intro hdirty s2 hws
      rw [getByte_miss_eq L c s addr cy true hb]
      rw [loadBlock_eq L (missState c true) s addr cy true w s1 cy1 hget]
      rw [missState_dirtyVictim, hdirty]
      simp only [if_true]
      rw [show writeBlockToLowerLevel L (missState c true).policy s1
          ((missState c true).blocks (replIdOf (missState c true) addr)) = .ok s2 from hws]
      simp only [mapOk, bindOk]
      simp only [getBlockId_mk, missState_blocks, missState_policy, missState_replIdOf]
      rw [hlook]
      simp only [bindOk]
      simp [missState, updB_self, updB_updB]

/-- C4 counterexample: a prefetch-flagged miss whose fill evicts a
valid dirty block under write-back changes the level's `totalCycles`
(by `missLatency`), contradicting the claim that a prefetch miss never
changes `totalCycles`.  Here the write `setByte 0` dirties the only
block (totalCycles 7), and the prefetch read of address 1 misses and
evicts it, pushing totalCycles to 14 while numRead/numMiss stay put. -/
theorem prefetch_miss_totalCycles_cx :
    ((do
      let r1 ← setByte memIface (initState ⟨1, 1, 1, 1, 1, 7⟩ true true) mem0 0 9 none
      let r2 ← getByte memIface r1.1 r1.2.1 1 none true
      pure (r1.1.statistics.totalCycles, r2.2.1.statistics.totalCycles,
        r1.1.statistics.numRead, r2.2.1.statistics.numRead,
        r1.1.statistics.numMiss, r2.2.1.statistics.numMiss)) :
        Except SimErr (Nat × Nat × Nat × Nat × Nat × Nat)) =
      .ok (7, 14, 0, 0, 1, 1) ∧ (14 : Nat) ≠ 7 := by
  constructor
  · decide
  · decide

theorem prefetch_access_semantics_witness :
    (getByte memIface cacheDirty mem0 0 none true =
      .ok ((cacheDirty.blocks 0).data (getOffset cacheDirty.policy 0),
        { cacheDirty with
          referenceCounter := cacheDirty.referenceCounter + 1
          blocks := updB cacheDirty.blocks 0
            { cacheDirty.blocks 0 with lastReference := cacheDirty.referenceCounter + 1 }
          statistics := { cacheDirty.statistics with
            numHit := cacheDirty.statistics.numHit + 1
            totalCycles := cacheDirty.statistics.totalCycles +
              cacheDirty.policy.hitLatency } },
        mem0, none)) ∧
    (getByte memIface (initState ⟨1, 1, 1, 1, 1, 7⟩ true true) mem0 1 none true =
      .ok ((newBlockOf (initState ⟨1, 1, 1, 1, 1, 7⟩ true true).policy 1 0).data
          (getOffset (initState ⟨1, 1, 1, 1, 1, 7⟩ true true).policy 1),
        { initState ⟨1, 1, 1, 1, 1, 7⟩ true true with
          referenceCounter := (initState ⟨1, 1, 1, 1, 1, 7⟩ true true).referenceCounter + 1
          blocks := updB (initState ⟨1, 1, 1, 1, 1, 7⟩ true true).blocks
            (replIdOf (initState ⟨1, 1, 1, 1, 1, 7⟩ true true) 1)
            { newBlockOf (initState ⟨1, 1, 1, 1, 1, 7⟩ true true).policy 1 0 with
              lastReference :=
                (initState ⟨1, 1, 1, 1, 1, 7⟩ true true).referenceCounter + 1 } },
        mem0, none)) ∧
    (getByte memIface cacheDirty mem0 1 none true =
      .ok ((newBlockOf cacheDirty.policy 1 0).data (getOffset cacheDirty.policy 1),
        { cacheDirty with
          referenceCounter := cacheDirty.referenceCounter + 1
          blocks := updB cacheDirty.blocks (replIdOf cacheDirty 1)
            { newBlockOf cacheDirty.policy 1 0 with
              lastReference := cacheDirty.referenceCounter + 1 }
          statistics := { cacheDirty.statistics with
            totalCycles := cacheDirty.statistics.totalCycles +
              cacheDirty.policy.missLatency } },
        updF mem0 0 9, none)) := by
  refine ⟨?_, ?_, ?_⟩
  · exact (prefetch_access_semantics memIface cacheDirty mem0 0 none).1 0 (by decide)
  · exact ((prefetch_access_semantics memIface (initState ⟨1, 1, 1, 1, 1, 7⟩ true true)
      mem0 1 none).2 (by decide) (by decide) 0 mem0 none rfl).1 (by decide)
  · exact ((prefetch_access_semantics memIface cacheDirty mem0 1 none).2 (by decide)
      (by decide) 0 mem0 none rfl).2 (by decide) (updF mem0 0 9) rfl

/-- C2 counterexample: on the cold-miss-then-hit scenario (64-byte
blocks, one set, one way, hitLatency 1, missLatency 10) the statistic
`totalCycles` ends at `hitLatency + missLatency = 11`, not at
`hitLatency + missLatency + 100` as the claim requires: the
100-cycles-per-byte memory read cost is only written to the optional
`cycles` out-parameter, never added to `totalCycles`. -/
theorem cold_miss_then_hit_cycles_cx :
    ¬ ((runOps memIface [.rd 0 false, .rd 0 false]
          (initState ⟨64, 64, 1, 1, 1, 10⟩ true true, mem0)).map
        (fun z => z.1.statistics.totalCycles) = .ok (1 + 10 + 100)) ∧
    (runOps memIface [.rd 0 false, .rd 0 false]
        (initState ⟨64, 64, 1, 1, 1, 10⟩ true true, mem0)).map
      (fun z => z.1.statistics.totalCycles) = .ok 11 := by
  refine ⟨?_, ?_⟩
  · decide
  · decide

/-- C2 (amended): reading the same address twice through a one-set,
one-way, 64-byte-block cache with no lower level yields
`numRead = 2, numHit = 1, numMiss = 1` and
`totalCycles = hitLatency + missLatency`; the 100-cycle-per-byte cost
of the memory read during the fill is reported only through the
optional cycles out-parameter, not in `totalCycles`. -/
theorem cold_miss_then_hit_stats (h m : Nat) (wb wa : Bool) :
    (runOps memIface [.rd 0 false, .rd 0 false]
        (initState ⟨64, 64, 1, 1, h, m⟩ wb wa, mem0)).map
      (fun z => z.1.statistics) = .ok ⟨2, 0, 1, 1, h + m⟩ := by
  simp [runOps, getByte, loadBlockFromLowerLevel, readBytes, getBlockId, getBlockIdAux,
    getReplacementBlockId, lruScan, initState, initCache, getId, getTag, getOffset,
    offsetBits, idBits, log2i, log2Loop, blockBase, memIface, newBlockOf, updB, updF,
    List.range']
  omega

/-! ### Demand accounting (C10) -/

/-- Whether an access is a demand access at this level (a
non-prefetch read, or any write). -/
def isDemand : MemOp → Bool
  | .rd _ pf => !pf
  | .wr _ _ => true

/-- Boolean success test for a simulator result. -/
def okB : Except SimErr α → Bool
  | .ok _ => true
  | .error _ => false

theorem okB_ok {x : Except SimErr α} (h : okB x = true) : ∃ a, x = .ok a := by
  cases x with
  | ok a => exact ⟨a, rfl⟩
  | error e => exact absurd h (by simp [okB])

/-- C10: each demand access increments exactly one of numHit/numMiss by
one (the post-fill re-lookup inside a miss does not count as a hit), a
demand read adds one to numRead and a write one to numWrite, and hence
over any prefetch-free sequence starting from counters satisfying
numHit + numMiss = numRead + numWrite (in particular from a fresh
cache), the identity numHit + numMiss = numRead + numWrite persists. -/
theorem demand_hit_miss_accounting {σ2 : Type} (L : LowerIface σ2) :
    (∀ (c : Cache) (s : σ2) (addr : Nat) (cy : Option Nat) (t : Nat × Nat × Nat × Nat),
      (getByte L c s addr cy false).map
          (fun r => (r.2.1.statistics.numHit, r.2.1.statistics.numMiss,
            r.2.1.statistics.numRead, r.2.1.statistics.numWrite)) = .ok t →
        ((t.1 = c.statistics.numHit + 1 ∧ t.2.1 = c.statistics.numMiss) ∨
         (t.1 = c.statistics.numHit ∧ t.2.1 = c.statistics.numMiss + 1)) ∧
        t.2.2.1 = c.statistics.numRead + 1 ∧ t.2.2.2 = c.statistics.numWrite) ∧
    (∀ (c : Cache) (s : σ2) (addr val : Nat) (cy : Option Nat) (t : Nat × Nat × Nat × Nat),
      (setByte L c s addr val cy).map
          (fun r => (r.1.statistics.numHit, r.1.statistics.numMiss,
            r.1.statistics.numRead, r.1.statistics.numWrite)) = .ok t →
        ((t.1 = c.statistics.numHit + 1 ∧ t.2.1 = c.statistics.numMiss) ∨
         (t.1 = c.statistics.numHit ∧ t.2.1 = c.statistics.numMiss + 1)) ∧
        t.2.2.1 = c.statistics.numRead ∧ t.2.2.2 = c.statistics.numWrite + 1) ∧
    (∀ (ops : List MemOp) (c : Cache) (s : σ2) (t : Nat × Nat × Nat × Nat),
      (∀ op ∈ ops, isDemand op = true) →
      c.statistics.numHit + c.statistics.numMiss =
        c.statistics.numRead + c.statistics.numWrite →
      (runOps L ops (c, s)).map
          (fun z => (z.1.statistics.numHit, z.1.statistics.numMiss,
            z.1.statistics.numRead, z.1.statistics.numWrite)) = .ok t →
      t.1 + t.2.1 = t.2.2.1 + t.2.2.2) := by
  have hget : ∀ (c : Cache) (s : σ2) (addr : Nat) (cy : Option Nat)
      (t : Nat × Nat × Nat × Nat),
      (getByte L c s addr cy false).map
          (fun r => (r.2.1.statistics.numHit, r.2.1.statistics.numMiss,
            r.2.1.statistics.numRead, r.2.1.statistics.numWrite)) = .ok t →
        ((t.1 = c.statistics.numHit + 1 ∧ t.2.1 = c.statistics.numMiss) ∨
         (t.1 = c.statistics.numHit ∧ t.2.1 = c.statistics.numMiss + 1)) ∧
        t.2.2.1 = c.statistics.numRead + 1 ∧ t.2.2.2 = c.statistics.numWrite := by
    intro c s addr cy t h
    cases hr : getByte L c s addr cy false with
    | error e =>
      rw [hr] at h
      exact absurd h (by simp)
    | ok r =>
      rcases r with ⟨v, c2, s2, cy2⟩
      rw [hr] at h
      simp only [mapOk, Except.ok.injEq] at h
      rcases getByte_inv hr with ⟨_, _, _, _, hnr, hnw, hcase⟩
      rw [h.symm]
      dsimp only
      refine ⟨?_, by simpa using hnr, hnw⟩
      rcases hcase with ⟨j, _, hh, hm, _⟩ | ⟨_, _, hh, hm, _⟩
      · exact Or.inl ⟨hh, hm⟩
      · exact Or.inr ⟨hh, by simpa using hm⟩
  have hset : ∀ (c : Cache) (s : σ2) (addr val : Nat) (cy : Option Nat)
      (t : Nat × Nat × Nat × Nat),
      (setByte L c s addr val cy).map
          (fun r => (r.1.statistics.numHit, r.1.statistics.numMiss,
            r.1.statistics.numRead, r.1.statistics.numWrite)) = .ok t →
        ((t.1 = c.statistics.numHit + 1 ∧ t.2.1 = c.statistics.numMiss) ∨
         (t.1 = c.statistics.numHit ∧ t.2.1 = c.statistics.numMiss + 1)) ∧
        t.2.2.1 = c.statistics.numRead ∧ t.2.2.2 = c.statistics.numWrite + 1 := by
    intro c s addr val cy t h
    cases hr : setByte L c s addr val cy with
    | error e =>
      rw [hr] at h
      exact absurd h (by simp)
    | ok r =>
      rcases r with ⟨c2, s2, cy2⟩
      rw [hr] at h
      simp only [mapOk, Except.ok.injEq] at h
      rcases setByte_inv hr with ⟨_, _, _, _, hnr, hnw, hcase⟩
      rw [h.symm]
      dsimp only
      refine ⟨?_, hnr, hnw⟩
      rcases hcase with ⟨j, _, hh, hm, _⟩ | ⟨_, hh, hm, _⟩
      · exact Or.inl ⟨hh, hm⟩
      · exact Or.inr ⟨hh, hm⟩
  refine ⟨hget, hset, ?_⟩
  intro ops
  induction ops with
  | nil =>
    intro c s t _ hinv h
    simp only [runOps, mapOk, Except.ok.injEq] at h
    rw [h.symm]
    exact hinv
  | cons op rest ih =>
    intro c s t hdem hinv h
    cases op with
    | rd a pf =>
      have hpf : pf = false := by
        have := hdem (.rd a pf) (by simp)
        simp [isDemand] at this
        exact this
      subst hpf
      simp only [runOps] at h
      cases hr : getByte L c s a none false with
      | error e =>
        rw [hr] at h
        exact absurd h (by simp)
      | ok r =>
        rcases r with ⟨v, c2, s2, cy2⟩
        rw [hr] at h
        simp only [bindOk] at h
        have hstep := hget c s a none
          (c2.statistics.numHit, c2.statistics.numMiss,
            c2.statistics.numRead, c2.statistics.numWrite) (by rw [hr]; rfl)
        refine ih c2 s2 t (fun op hop => hdem op (List.mem_cons_of_mem _ hop)) ?_ h
        rcases hstep with ⟨hd, h1, h2⟩
        rcases hd with ⟨hh, hm⟩ | ⟨hh, hm⟩ <;> dsimp only at hh hm h1 h2 <;> omega
    | wr a v =>
      simp only [runOps] at h
      cases hr : setByte L c s a v none with
      | error e =>
        rw [hr] at h
        exact absurd h (by simp)
      | ok r =>
        rcases r with ⟨c2, s2, cy2⟩
        rw [hr] at h
        simp only [bindOk] at h
        have hstep := hset c s a v none
          (c2.statistics.numHit, c2.statistics.numMiss,
            c2.statistics.numRead, c2.statistics.numWrite) (by rw [hr]; rfl)
        refine ih c2 s2 t (fun op hop => hdem op (List.mem_cons_of_mem _ hop)) ?_ h
        rcases hstep with ⟨hd, h1, h2⟩
        rcases hd with ⟨hh, hm⟩ | ⟨hh, hm⟩ <;> dsimp only at hh hm h1 h2 <;> omega

theorem demand_hit_miss_accounting_witness :
    ((getByte memIface (initState ⟨4, 4, 1, 1, 1, 1⟩ true true) mem0 0 none false).map
        (fun r => (r.2.1.statistics.numHit, r.2.1.statistics.numMiss,
          r.2.1.statistics.numRead, r.2.1.statistics.numWrite)) = .ok (0, 1, 1, 0)) ∧
    ((((0 : Nat) = 0 + 1 ∧ (1 : Nat) = 0) ∨ ((0 : Nat) = 0 ∧ (1 : Nat) = 0 + 1)) ∧
      (1 : Nat) = 0 + 1 ∧ (0 : Nat) = 0) ∧
    ((1 : Nat) + 1 = 1 + 1) := by
  refine ⟨by decide, ?_, ?_⟩
  · exact (demand_hit_miss_accounting memIface).1
      (initState ⟨4, 4, 1, 1, 1, 1⟩ true true) mem0 0 none (0, 1, 1, 0) (by decide)
  · exact (demand_hit_miss_accounting memIface).2.2
      [.rd 0 false, .wr 0 5] (initState ⟨4, 4, 1, 1, 1, 1⟩ true true) mem0
      (1, 1, 1, 1) (by decide) (by decide) (by decide)

/-! ### The id invariant (C6) -/

/-- Every slot's stored set id agrees with its position. -/
def idInv (c : Cache) : Prop :=
  ∀ i, (c.blocks i).id = i / c.policy.associativity

theorem idInv_init (p : Policy) (wb wa : Bool) : idInv (initState p wb wa) := by
  intro i
  rfl

theorem idInv_getByte {L : LowerIface σ} {c : Cache} {s : σ} {addr : Nat} {cy : Option Nat}
    {pf : Bool} {v : Nat} {c2 : Cache} {s2 : σ} {cy2 : Option Nat}
    (hinv : idInv c) (h : getByte L c s addr cy pf = .ok (v, c2, s2, cy2)) : idInv c2 := by
  intro i
  rcases getByte_inv h with ⟨hp, _, _, _, _, _, hcase⟩
  rw [hp]
  rcases hcase with ⟨j, hb, _, _, _, hblocks, _, _, _⟩ |
    ⟨hb, ha, _, _, _, w, s1, cy1, _, hblocks, _, _, _, _⟩
  · rw [hblocks]
    by_cases hij : i = j
    · subst hij
      rw [updB_self]
      exact hinv i
    · rw [updB_other _ _ _ _ hij]
      exact hinv i
  · rw [hblocks]
    by_cases hij : i = replIdOf c addr
    · rw [hij, updB_self]
      show getId c.policy addr = replIdOf c addr / c.policy.associativity
      exact (div_of_mem_window (replIdOf_mem_window c addr ha)).symm
    · rw [updB_other _ _ _ _ hij]
      exact hinv i

theorem idInv_setByte {L : LowerIface σ} {c : Cache} {s : σ} {addr val : Nat}
    {cy : Option Nat} {c2 : Cache} {s2 : σ} {cy2 : Option Nat}
    (hinv : idInv c) (h : setByte L c s addr val cy = .ok (c2, s2, cy2)) : idInv c2 := by
  intro i
  rcases setByte_inv h with ⟨hp, _, _, _, _, _, hcase⟩
  rw [hp]
  rcases hcase with ⟨j, hb, _, _, _, hblocks, _, _, _⟩ | ⟨hb, _, _, hsub⟩
  · rw [hblocks]
    by_cases hij : i = j
    · subst hij
      rw [updB_self]
      exact hinv i
    · rw [updB_other _ _ _ _ hij]
      exact hinv i
  · rcases hsub with ⟨_, ha, _, w, s1, cy1, _, hblocks, _, _, _⟩ | ⟨_, _, hblocks, _, _⟩
    · rw [hblocks]
      by_cases hij : i = replIdOf c addr
      · rw [hij, updB_self]
        show getId c.policy addr = replIdOf c addr / c.policy.associativity
        exact (div_of_mem_window (replIdOf_mem_window c addr ha)).symm
      · rw [updB_other _ _ _ _ hij]
        exact hinv i
    · rw [hblocks]
      exact hinv i

theorem idInv_runOps {L : LowerIface σ} :
    ∀ {ops : List MemOp} {c : Cache} {s : σ} {z : Cache × σ},
      idInv c → runOps L ops (c, s) = .ok z → idInv z.1 := by
  intro ops
  induction ops with
  | nil =>
    intro c s z hinv h
    simp only [runOps, Except.ok.injEq] at h
    rw [h.symm]
    exact hinv
  | cons op rest ih =>
    intro c s z hinv h
    cases op with
    | rd a pf =>
      simp only [runOps] at h
      cases hr : getByte L c s a none pf with
      | error e =>
        rw [hr] at h
        exact absurd h (by simp)
      | ok r =>
        rcases r with ⟨v, c2, s2, cy2⟩
        rw [hr] at h
        simp only [bindOk] at h
        exact ih (idInv_getByte hinv hr) h
    | wr a v =>
      simp only [runOps] at h
      cases hr : setByte L c s a v none with
      | error e =>
        rw [hr] at h
        exact absurd h (by simp)
      | ok r =>
        rcases r with ⟨c2, s2, cy2⟩
        rw [hr] at h
        simp only [bindOk] at h
        exact ih (idInv_setByte hinv hr) h

theorem getBlockIdAux_ok_of_ids {blocks : Nat → Block} {id tag : Nat} :
    ∀ {l : List Nat}, (∀ i ∈ l, (blocks i).id = id) →
      ∃ r, getBlockIdAux blocks id tag l = .ok r := by
  intro l
  induction l with
  | nil => intro _; exact ⟨none, rfl⟩
  | cons i rest ih =>
    intro hl
    simp only [getBlockIdAux]
    rw [if_neg (by simp [hl i (by simp)])]
    by_cases h2 : ((blocks i).valid && (blocks i).tag == tag) = true
    · rw [if_pos h2]
      exact ⟨some i, rfl⟩
    · rw [if_neg h2]
      exact ih (fun j hj => hl j (List.mem_cons_of_mem _ hj))

theorem getBlockId_ok_of_idInv {c : Cache} (hinv : idInv c) (addr : Nat) :
    ∃ r, getBlockId c addr = .ok r := by
  rw [getBlockId_def]
  refine getBlockIdAux_ok_of_ids ?_
  intro i hi
  rw [hinv i]
  exact div_of_mem_window hi

/-- C6: starting from a freshly initialized cache with a valid policy,
after any sequence of reads (demand or prefetch) and writes, every slot
`i` of the block table stores `id = i / associativity`; consequently
the fatal inconsistent-ID branch of the lookup is unreachable — on the
resulting state, `getBlockId` never returns an error for any address. -/
theorem blocks_id_invariant {σ2 : Type} (L : LowerIface σ2) (p : Policy) (wb wa : Bool)
    (ops : List MemOp) (s : σ2) (_hval : isPolicyValid p = true) :
    (∀ i r, i < p.blockNum →
      (runOps L ops (initState p wb wa, s)).map (fun z => (z.1.blocks i).id) = .ok r →
      r = i / p.associativity) ∧
    (∀ addr, okB (runOps L ops (initState p wb wa, s)) = true →
      okB ((runOps L ops (initState p wb wa, s)) >>= fun z => getBlockId z.1 addr) = true) := by
  have hpol : ∀ {z : Cache × σ2}, runOps L ops (initState p wb wa, s) = .ok z →
      z.1.policy = p := by
    intro z h
    have : ∀ (ops2 : List MemOp) (c : Cache) (s2 : σ2) (z2 : Cache × σ2),
        runOps L ops2 (c, s2) = .ok z2 → z2.1.policy = c.policy := by
      intro ops2
      induction ops2 with
      | nil =>
        intro c s2 z2 h2
        simp only [runOps, Except.ok.injEq] at h2
        rw [h2.symm]
      | cons op rest ih =>
        intro c s2 z2 h2
        cases op with
        | rd a pf =>
          simp only [runOps] at h2
          cases hr : getByte L c s2 a none pf with
          | error e =>
            rw [hr] at h2
            exact absurd h2 (by simp)
          | ok r =>
            rcases r with ⟨v, c2, s3, cy2⟩
            rw [hr] at h2
            simp only [bindOk] at h2
            rw [ih c2 s3 z2 h2]
            exact (getByte_inv hr).1
        | wr a v =>
          simp only [runOps] at h2
          cases hr : setByte L c s2 a v none with
          | error e =>
            rw [hr] at h2
            exact absurd h2 (by simp)
          | ok r =>
            rcases r with ⟨c2, s3, cy2⟩
            rw [hr] at h2
            simp only [bindOk] at h2
            rw [ih c2 s3 z2 h2]
            exact (setByte_inv hr).1
    exact this ops (initState p wb wa) s z h
  constructor
  · intro i r hi h
    cases hrun : runOps L ops (initState p wb wa, s) with
    | error e =>
      rw [hrun] at h
      exact absurd h (by simp)
    | ok z =>
      rw [hrun] at h
      simp only [mapOk, Except.ok.injEq] at h
      have hinv := idInv_runOps (idInv_init p wb wa) hrun
      rw [h.symm, hinv i, hpol hrun]
  · intro addr hok
    rcases okB_ok hok with ⟨z, hrun⟩
    rw [hrun]
    simp only [bindOk]
    have hinv := idInv_runOps (idInv_init p wb wa) hrun
    rcases getBlockId_ok_of_idInv hinv addr with ⟨r, hr⟩
    rw [hr]
    rfl

theorem blocks_id_invariant_witness :
    isPolicyValid ⟨8, 4, 2, 1, 1, 1⟩ = true ∧
    (0 : Nat) = 0 / (1 : Nat) ∧
    okB ((runOps memIface [.rd 0 false, .wr 5 9, .rd 4 true]
        (initState ⟨8, 4, 2, 1, 1, 1⟩ true true, mem0)) >>=
      fun z => getBlockId z.1 3) = true := by
  have h := blocks_id_invariant memIface ⟨8, 4, 2, 1, 1, 1⟩ true true
    [.rd 0 false, .wr 5 9, .rd 4 true] mem0 (by decide)
  refine ⟨by decide, ?_, h.2 3 (by decide)⟩
  exact h.1 0 0 (by decide) (by decide)

/-! ### Demand counters through the driver loop (C3) -/

/-- Whether a trace record is a read. -/
def isReadOp : TraceOp → Bool
  | .r _ => true
  | .w _ => false

theorem getByte_numRW {L : LowerIface σ} {c : Cache} {s : σ} {addr : Nat} {cy : Option Nat}
    {pf : Bool} {v : Nat} {c2 : Cache} {s2 : σ} {cy2 : Option Nat}
    (h : getByte L c s addr cy pf = .ok (v, c2, s2, cy2)) :
    c2.statistics.numRead = c.statistics.numRead + (if pf then 0 else 1) ∧
    c2.statistics.numWrite = c.statistics.numWrite :=
  ⟨(getByte_inv h).2.2.2.2.1, (getByte_inv h).2.2.2.2.2.1⟩

theorem demandOp_counts {L : LowerIface σ} {cs cs2 : Cache × σ} {op : TraceOp}
    (h : demandOp L cs op = .ok cs2) :
    cs2.1.statistics.numRead =
      cs.1.statistics.numRead + (if isReadOp op then 1 else 0) ∧
    cs2.1.statistics.numWrite =
      cs.1.statistics.numWrite + (if isReadOp op then 0 else 1) := by
  cases op with
  | r a =>
    simp only [demandOp] at h
    cases hr : getByte L cs.1 cs.2 a none false with
    | error e =>
      rw [hr] at h
      exact absurd h (by simp)
    | ok r =>
      rcases r with ⟨v, c2, s2, cy2⟩
      rw [hr] at h
      simp only [bindOk, pureOk, Except.ok.injEq] at h
      rw [h.symm]
      rcases getByte_numRW hr with ⟨h1, h2⟩
      simp only [isReadOp, if_true]
      exact ⟨by simpa using h1, by simpa using h2⟩
  | w a =>
    simp only [demandOp] at h
    cases hr : setByte L cs.1 cs.2 a 0 none with
    | error e =>
      rw [hr] at h
      exact absurd h (by simp)
    | ok r =>
      rcases r with ⟨c2, s2, cy2⟩
      rw [hr] at h
      simp only [bindOk, pureOk, Except.ok.injEq] at h
      rw [h.symm]
      rcases setByte_inv hr with ⟨_, _, _, _, h1, h2, _⟩
      simp only [isReadOp]
      exact ⟨by simpa using h1, by simpa using h2⟩

theorem issueOne_counts {L : LowerIface σ} {cs cs2 : Cache × σ} {pa : Nat}
    (h : issueOne L cs pa = .ok cs2) :
    cs2.1.statistics.numRead = cs.1.statistics.numRead ∧
    cs2.1.statistics.numWrite = cs.1.statistics.numWrite := by
  simp only [issueOne] at h
  cases hc : inCache cs.1 pa with
  | error e =>
    rw [hc] at h
    exact absurd h (by simp)
  | ok present =>
    rw [hc] at h
    simp only [bindOk] at h
    cases present with
    | true =>
      simp only [if_true, pureOk, Except.ok.injEq] at h
      rw [h.symm]
      exact ⟨rfl, rfl⟩
    | false =>
      simp only [Bool.false_eq_true, if_false] at h
      cases hr : getByte L cs.1 cs.2 pa none true with
      | error e =>
        rw [hr] at h
        exact absurd h (by simp)
      | ok r =>
        rcases r with ⟨v, c2, s2, cy2⟩
        rw [hr] at h
        simp only [bindOk, pureOk, Except.ok.injEq] at h
        rw [h.symm]
        rcases getByte_numRW hr with ⟨h1, h2⟩
        exact ⟨by simpa using h1, h2⟩

theorem issueMany_counts {L : LowerIface σ} {addr : Nat} {stride : Int} :
    ∀ {l : List Nat} {cs cs2 : Cache × σ},
      issueMany L addr stride cs l = .ok cs2 →
      cs2.1.statistics.numRead = cs.1.statistics.numRead ∧
      cs2.1.statistics.numWrite = cs.1.statistics.numWrite := by
  intro l
  induction l with
  | nil =>
    intro cs cs2 h
    simp only [issueMany, Except.ok.injEq] at h
    rw [h.symm]
    exact ⟨rfl, rfl⟩
  | cons i rest ih =>
    intro cs cs2 h
    simp only [issueMany] at h
    cases h1 : issueOne L cs (prefetchAddr addr i stride) with
    | error e =>
      rw [h1] at h
      exact absurd h (by simp)
    | ok cs1 =>
      rw [h1] at h
      simp only [bindOk] at h
      rcases issueOne_counts h1 with ⟨ha, hb⟩
      rcases ih h with ⟨hc, hd⟩
      exact ⟨by rw [hc, ha], by rw [hd, hb]⟩

theorem pfStep_counts {L : LowerIface σ} {cs : Cache × σ} {p : PfState} {op : TraceOp}
    {z : (Cache × σ) × PfState} (h : pfStep L cs p op = .ok z) :
    z.1.1.statistics.numRead =
      cs.1.statistics.numRead + (if isReadOp op then 1 else 0) ∧
    z.1.1.statistics.numWrite =
      cs.1.statistics.numWrite + (if isReadOp op then 0 else 1) := by
  simp only [pfStep] at h
  cases hd : demandOp L cs op with
  | error e =>
    rw [hd] at h
    exact absurd h (by simp)
  | ok cs1 =>
    rw [hd] at h
    simp only [bindOk] at h
    rcases demandOp_counts hd with ⟨h1, h2⟩
    have key : ∀ (a : Nat) (st : Int) (l : List Nat) (q : PfState),
        ((issueMany L a st cs1 l) >>= fun cs2 => pure (cs2, q)) = .ok z →
        z.1.1.statistics.numRead =
          cs.1.statistics.numRead + (if isReadOp op then 1 else 0) ∧
        z.1.1.statistics.numWrite =
          cs.1.statistics.numWrite + (if isReadOp op then 0 else 1) := by
      intro a st l q hh
      cases hm : issueMany L a st cs1 l with
      | error e =>
        rw [hm] at hh
        exact absurd hh (by simp)
      | ok cs3 =>
        rw [hm] at hh
        simp only [bindOk, pureOk, Except.ok.injEq] at hh
        subst hh
        rcases issueMany_counts hm with ⟨h3, h4⟩
        exact ⟨h3.trans h1, h4.trans h2⟩
    have keyP : ∀ (q : PfState),
        (pure (cs1, q) : Except SimErr ((Cache × σ) × PfState)) = .ok z →
        z.1.1.statistics.numRead =
          cs.1.statistics.numRead + (if isReadOp op then 1 else 0) ∧
        z.1.1.statistics.numWrite =
          cs.1.statistics.numWrite + (if isReadOp op then 0 else 1) := by
      intro q hh
      simp only [pureOk, Except.ok.injEq] at hh
      subst hh
      exact ⟨h1, h2⟩
    repeat' split at h
    all_goals first
      | exact key _ _ _ _ h
      | exact keyP _ h

theorem runPf_counts {L : LowerIface σ} :
    ∀ {trace : List TraceOp} {cs : Cache × σ} {p : PfState} {z : (Cache × σ) × PfState},
      runPf L trace (cs, p) = .ok z →
      z.1.1.statistics.numRead =
        cs.1.statistics.numRead + trace.countP (fun op => isReadOp op) ∧
      z.1.1.statistics.numWrite =
        cs.1.statistics.numWrite + trace.countP (fun op => !isReadOp op) := by
  intro trace
  induction trace with
  | nil =>
    intro cs p z h
    simp only [runPf, Except.ok.injEq] at h
    subst h
    simp
  | cons op rest ih =>
    intro cs p z h
    simp only [runPf] at h
    cases hs : pfStep L cs p op with
    | error e =>
      rw [hs] at h
      exact absurd h (by simp)
    | ok z1 =>
      rcases z1 with ⟨cs1, p1⟩
      rw [hs] at h
      simp only [bindOk] at h
      rcases pfStep_counts hs with ⟨h1, h2⟩
      rcases ih h with ⟨h3, h4⟩
      constructor
      · rw [h3]
        show cs1.1.statistics.numRead + _ = _
        rw [h1, List.countP_cons]
        cases op <;> simp [isReadOp] <;> omega
      · rw [h4]
        show cs1.1.statistics.numWrite + _ = _
        rw [h2, List.countP_cons]
        cases op <;> simp [isReadOp] <;> omega

theorem runNoPf_counts {L : LowerIface σ} :
    ∀ {trace : List TraceOp} {cs : Cache × σ} {z : Cache × σ},
      runNoPf L trace cs = .ok z →
      z.1.statistics.numRead =
        cs.1.statistics.numRead + trace.countP (fun op => isReadOp op) ∧
      z.1.statistics.numWrite =
        cs.1.statistics.numWrite + trace.countP (fun op => !isReadOp op) := by
  intro trace
  induction trace with
  | nil =>
    intro cs z h
    simp only [runNoPf, Except.ok.injEq] at h
    subst h
    simp
  | cons op rest ih =>
    intro cs z h
    simp only [runNoPf] at h
    cases hs : demandOp L cs op with
    | error e =>
      rw [hs] at h
      exact absurd h (by simp)
    | ok cs1 =>
      rw [hs] at h
      simp only [bindOk] at h
      rcases demandOp_counts hs with ⟨h1, h2⟩
      rcases ih h with ⟨h3, h4⟩
      constructor
      · rw [h3, h1, List.countP_cons]
        cases op <;> simp [isReadOp] <;> omega
      · rw [h4, h2, List.countP_cons]
        cases op <;> simp [isReadOp] <;> omega

/-- C3 (amended): the driver loop with the stride-prefetch controller
and the loop without it agree on the top-level demand counters
`numRead` and `numWrite` on every trace on which both succeed (each
equals the count of reads resp. writes in the trace); `numMiss` is NOT
preserved — a prefetch can convert a later demand miss into a hit
(see the counterexample). -/
theorem prefetch_preserves_demand_reads {σ : Type} (L : LowerIface σ)
    (trace : List TraceOp) (cs : Cache × σ) (p : PfState)
    (h1 : okB (runPf L trace (cs, p)) = true)
    (h2 : okB (runNoPf L trace cs) = true) :
    (runPf L trace (cs, p)).map
        (fun z => (z.1.1.statistics.numRead, z.1.1.statistics.numWrite))
      = (runNoPf L trace cs).map
        (fun y => (y.1.statistics.numRead, y.1.statistics.numWrite)) := by
  rcases okB_ok h1 with ⟨z, hz⟩
  rcases okB_ok h2 with ⟨y, hy⟩
  rcases runPf_counts hz with ⟨hz1, hz2⟩
  rcases runNoPf_counts hy with ⟨hy1, hy2⟩
  rw [hz, hy, mapOk, mapOk, hz1, hz2, hy1, hy2]

theorem prefetch_preserves_demand_reads_witness :
    okB (runPf memIface [.r 0, .w 4]
        ((initState ⟨4, 4, 1, 1, 1, 1⟩ true true, mem0), pfInit)) = true ∧
    okB (runNoPf memIface [.r 0, .w 4]
        (initState ⟨4, 4, 1, 1, 1, 1⟩ true true, mem0)) = true ∧
    (runPf memIface [.r 0, .w 4]
        ((initState ⟨4, 4, 1, 1, 1, 1⟩ true true, mem0), pfInit)).map
        (fun z => (z.1.1.statistics.numRead, z.1.1.statistics.numWrite))
      = (runNoPf memIface [.r 0, .w 4]
        (initState ⟨4, 4, 1, 1, 1, 1⟩ true true, mem0)).map
        (fun y => (y.1.statistics.numRead, y.1.statistics.numWrite)) :=
  ⟨by decide, by decide,
    prefetch_preserves_demand_reads memIface [.r 0, .w 4]
      (initState ⟨4, 4, 1, 1, 1, 1⟩ true true, mem0) pfInit
      (by decide) (by decide)⟩

/-- C3 counterexample: on the driver's 3-level hierarchy, the
stride-trace `r 0, r 0x40, r 0x80, r 0xC0, r 0x100` yields a top-level
`numMiss` of 4 with the prefetch controller but 5 without it (the
prefetch issued after the third stride match turns the last demand
access into a hit), refuting the claim that `numMiss` is identical. -/
theorem prefetch_changes_numMiss_cx :
    (runPf hierL [.r 0, .r 64, .r 128, .r 192, .r 256]
        (hierInit, pfInit)).map (fun z => z.1.1.statistics.numMiss) = .ok 4 ∧
    (runNoPf hierL [.r 0, .r 64, .r 128, .r 192, .r 256]
        hierInit).map (fun y => y.1.statistics.numMiss) = .ok 5 := by
  exact ⟨by decide, by decide⟩

/-- C9: evaluation of the round-trip claim at a failing input.  On a
write-allocate, write-back, one-set one-way cache over raw memory,
`setByte 1 5` followed by a single intervening demand read of address
4 (one distinct conflicting block, not exceeding the associativity of
1) makes the subsequent `getByte 1` return 0, not 5: the dirty victim
is written back correctly, but the refill loop transfers only the
block-base byte and zeroes the rest, losing the written value.
Without the intervening read the same `getByte 1` returns 5. -/
theorem round_trip_violation :
    ((runOps memIface [.wr 1 5, .rd 4 false]
        (initState ⟨4, 4, 1, 1, 1, 1⟩ true true, mem0)).bind
      (fun cs => (getByte memIface cs.1 cs.2 1 none false).map
        (fun r => r.1))) = .ok 0 ∧
    ((runOps memIface [.wr 1 5]
        (initState ⟨4, 4, 1, 1, 1, 1⟩ true true, mem0)).bind
      (fun cs => (getByte memIface cs.1 cs.2 1 none false).map
        (fun r => r.1))) = .ok 5 := by
  exact ⟨by decide, by decide⟩

/-- The first-pass loop of `getReplacementBlockId`: a successful
`find?` over the window returns the lowest-indexed invalid slot. -/
theorem find_invalid_first (blocks : Nat → Block) :
    ∀ (n b i : Nat),
      (List.range' b n).find? (fun k => !(blocks k).valid) = some i →
      i ∈ List.range' b n ∧ (blocks i).valid = false ∧
        ∀ j ∈ List.range' b n, j < i → (blocks j).valid = true := by
  intro n
  induction n with
  | zero => intro b i h; simp at h
  | succ n ih =>
    intro b i h
    rw [List.range'_succ b n 1] at h ⊢
    rw [List.find?_cons] at h
    cases hv : (blocks b).valid with
    | false =>
      rw [hv] at h
      simp only [Bool.not_false, Option.some.injEq] at h
      subst h
      refine ⟨List.mem_cons_self _ _, hv, ?_⟩
      intro j hj hjlt
      rcases List.mem_cons.mp hj with rfl | hj2
      · omega
      · have := (List.mem_range'_1.mp hj2).1
        omega
    | true =>
      rw [hv] at h
      simp only [Bool.not_true, if_neg] at h
      rcases ih (b + 1) i h with ⟨hmem, hinv, hfirst⟩
      refine ⟨List.mem_cons_of_mem _ hmem, hinv, ?_⟩
      intro j hj hjlt
      rcases List.mem_cons.mp hj with rfl | hj2
      · exact hv
      · exact hfirst j hj2 hjlt

/-- The second-pass loop of `getReplacementBlockId` (`lruScan`): either
no slot beats the incoming minimum and the accumulator is returned
unchanged, or the result is the lowest-indexed slot attaining the
window minimum. -/
theorem lruScan_range_char (blocks : Nat → Block) :
    ∀ (n b r m : Nat),
      (lruScan blocks (List.range' b n) (r, m) = (r, m) ∧
        ∀ i ∈ List.range' b n, m ≤ (blocks i).lastReference)
      ∨ (∃ i0, i0 ∈ List.range' b n ∧
          lruScan blocks (List.range' b n) (r, m) = (i0, (blocks i0).lastReference) ∧
          (blocks i0).lastReference < m ∧
          (∀ j ∈ List.range' b n, (blocks i0).lastReference ≤ (blocks j).lastReference) ∧
          (∀ j ∈ List.range' b n, j < i0 →
            (blocks i0).lastReference < (blocks j).lastReference)) := by
  intro n
  induction n with
  | zero =>
    intro b r m
    left
    simp [lruScan]
  | succ n ih =>
    intro b r m
    rw [List.range'_succ b n 1]
    by_cases hlt : (blocks b).lastReference < m
    · rcases ih (b + 1) b (blocks b).lastReference with ⟨he, hge⟩ | hr
      · right
        refine ⟨b, List.mem_cons_self _ _, ?_, hlt, ?_, ?_⟩
        · simp only [lruScan, if_pos hlt]
          exact he
        · intro j hj
          rcases List.mem_cons.mp hj with rfl | hj2
          · exact Nat.le_refl _
          · exact hge j hj2
        · intro j hj hjlt
          rcases List.mem_cons.mp hj with rfl | hj2
          · omega
          · have := (List.mem_range'_1.mp hj2).1
            omega
      · rcases hr with ⟨i0, hi0, heq, hlt2, hmin, hfirst⟩
        right
        refine ⟨i0, List.mem_cons_of_mem _ hi0, ?_, Nat.lt_trans hlt2 hlt, ?_, ?_⟩
        · simp only [lruScan, if_pos hlt]
          exact heq
        · intro j hj
          rcases List.mem_cons.mp hj with rfl | hj2
          · exact Nat.le_of_lt hlt2
          · exact hmin j hj2
        · intro j hj hjlt
          rcases List.mem_cons.mp hj with rfl | hj2
          · exact hlt2
          · exact hfirst j hj2 hjlt
    · rcases ih (b + 1) r m with ⟨he, hge⟩ | hr
      · left
        refine ⟨?_, ?_⟩
        · simp only [lruScan, if_neg hlt]
          exact he
        · intro i hi
          rcases List.mem_cons.mp hi with rfl | hi2
          · exact Nat.not_lt.mp hlt
          · exact hge i hi2
      · rcases hr with ⟨i0, hi0, heq, hlt2, hmin, hfirst⟩
        right
        refine ⟨i0, List.mem_cons_of_mem _ hi0, ?_, hlt2, ?_, ?_⟩
        · simp only [lruScan, if_neg hlt]
          exact heq
        · intro j hj
          rcases List.mem_cons.mp hj with rfl | hj2
          · exact Nat.le_of_lt (Nat.lt_of_lt_of_le hlt2 (Nat.not_lt.mp hlt))
          · exact hmin j hj2
        · intro j hj hjlt
          rcases List.mem_cons.mp hj with rfl | hj2
          · exact Nat.lt_of_lt_of_le hlt2 (Nat.not_lt.mp hlt)
          · exact hfirst j hj2 hjlt

/-- A concrete two-slot fully-valid window used to witness the
replacement-choice specification. -/
def wBlocks : Nat → Block := fun i =>
  if i = 0 then ⟨true, false, 7, 0, 1, 5, fun _ => 0⟩
  else ⟨true, false, 3, 0, 1, 2, fun _ => 0⟩

/-- C7: `getReplacementBlockId` over the window `[b, e)` returns the
lowest-indexed invalid slot when one exists, and otherwise the slot
with the smallest `lastReference`, ties broken by lowest index
(`lastReference` values are `uint32`, hence the bound); and, on a
fully-associative one-set two-way cache fed three distinct blocks with
no hits, the first-inserted block is evicted. -/
theorem replacement_choice_spec (blocks : Nat → Block) (b e : Nat)
    (hbe : b < e)
    (hmax : ∀ i ∈ List.range' b (e - b), (blocks i).lastReference ≤ 4294967295) :
    ((∃ i ∈ List.range' b (e - b), (blocks i).valid = false) →
      getReplacementBlockId blocks b e ∈ List.range' b (e - b) ∧
        (blocks (getReplacementBlockId blocks b e)).valid = false ∧
        ∀ j ∈ List.range' b (e - b), j < getReplacementBlockId blocks b e →
          (blocks j).valid = true) ∧
    ((∀ i ∈ List.range' b (e - b), (blocks i).valid = true) →
      getReplacementBlockId blocks b e ∈ List.range' b (e - b) ∧
        (∀ j ∈ List.range' b (e - b),
          (blocks (getReplacementBlockId blocks b e)).lastReference ≤
            (blocks j).lastReference) ∧
        ∀ j ∈ List.range' b (e - b),
          (blocks j).lastReference ≤
              (blocks (getReplacementBlockId blocks b e)).lastReference →
            getReplacementBlockId blocks b e ≤ j) ∧
    ((runOps memIface [.rd 0 false, .rd 1 false, .rd 2 false]
        (initState ⟨2, 1, 2, 2, 1, 1⟩ true true, mem0)).bind
      (fun cs => do
        let x ← inCache cs.1 0
        let y ← inCache cs.1 1
        let z ← inCache cs.1 2
        pure (x, y, z)) = .ok (false, true, true)) := by
  refine ⟨?_, ?_, by decide⟩
  · rintro ⟨i, hi, hvi⟩
    cases hf : (List.range' b (e - b)).find? (fun k => !(blocks k).valid) with
    | none =>
      have := List.find?_eq_none.mp hf i hi
      simp [hvi] at this
    | some k =>
      have hres : getReplacementBlockId blocks b e = k := by
        simp only [getReplacementBlockId, hf]
      rw [hres]
      exact find_invalid_first blocks (e - b) b k hf
  · intro hall
    cases hf : (List.range' b (e - b)).find? (fun k => !(blocks k).valid) with
    | some k =>
      have hk := List.find?_some hf
      have hkmem := List.mem_of_find?_eq_some hf
      have := hall k hkmem
      simp [this] at hk
    | none =>
      have hbmem : b ∈ List.range' b (e - b) := by
        rw [List.mem_range'_1]
        omega
      rcases lruScan_range_char blocks (e - b) b b 4294967295 with ⟨he, hge⟩ |
        ⟨i0, hi0, heq, _, hmin, hfirst⟩
      · have hres : getReplacementBlockId blocks b e = b := by
          simp only [getReplacementBlockId, hf, he]
        rw [hres]
        refine ⟨hbmem, ?_, ?_⟩
        · intro j hj
          exact Nat.le_trans (hmax b hbmem) (hge j hj)
        · intro j hj _
          exact (List.mem_range'_1.mp hj).1
      · have hres : getReplacementBlockId blocks b e = i0 := by
          simp only [getReplacementBlockId, hf, heq]
        rw [hres]
        refine ⟨hi0, hmin, ?_⟩
        intro j hj hle
        by_contra hcon
        have hjlt : j < i0 := by omega
        have := hfirst j hj hjlt
        omega

theorem replacement_choice_spec_witness :
    (0 < 2 ∧ ∀ i ∈ List.range' 0 (2 - 0), (wBlocks i).lastReference ≤ 4294967295) ∧
    (((∃ i ∈ List.range' 0 (2 - 0), (wBlocks i).valid = false) →
      getReplacementBlockId wBlocks 0 2 ∈ List.range' 0 (2 - 0) ∧
        (wBlocks (getReplacementBlockId wBlocks 0 2)).valid = false ∧
        ∀ j ∈ List.range' 0 (2 - 0), j < getReplacementBlockId wBlocks 0 2 →
          (wBlocks j).valid = true) ∧
    ((∀ i ∈ List.range' 0 (2 - 0), (wBlocks i).valid = true) →
      getReplacementBlockId wBlocks 0 2 ∈ List.range' 0 (2 - 0) ∧
        (∀ j ∈ List.range' 0 (2 - 0),
          (wBlocks (getReplacementBlockId wBlocks 0 2)).lastReference ≤
            (wBlocks j).lastReference) ∧
        ∀ j ∈ List.range' 0 (2 - 0),
          (wBlocks j).lastReference ≤
              (wBlocks (getReplacementBlockId wBlocks 0 2)).lastReference →
            getReplacementBlockId wBlocks 0 2 ≤ j) ∧
    ((runOps memIface [.rd 0 false, .rd 1 false, .rd 2 false]
        (initState ⟨2, 1, 2, 2, 1, 1⟩ true true, mem0)).bind
      (fun cs => do
        let x ← inCache cs.1 0
        let y ← inCache cs.1 1
        let z ← inCache cs.1 2
        pure (x, y, z)) = .ok (false, true, true))) :=
  ⟨⟨by decide, by decide⟩,
    replacement_choice_spec wBlocks 0 2 (by decide) (by decide)⟩

/-- Bit identity behind `isPowerOfTwo`: doubling shifts the
`n & (n-1)` test. -/
theorem land_two_mul_pred (m : Nat) (hm : 0 < m) :
    (2 * m) &&& (2 * m - 1) = 2 * (m &&& (m - 1)) := by
  apply Nat.eq_of_testBit_eq
  intro i
  cases i with
  | zero =>
    rw [Nat.testBit_land, Nat.testBit_zero, Nat.testBit_zero, Nat.testBit_zero]
    have h1 : 2 * m % 2 = 0 := by omega
    have h2 : 2 * (m &&& (m - 1)) % 2 = 0 := by omega
    simp [h1, h2]
  | succ i =>
    rw [Nat.testBit_land, Nat.testBit_succ, Nat.testBit_succ, Nat.testBit_succ]
    have h1 : 2 * m / 2 = m := by omega
    have h2 : (2 * m - 1) / 2 = m - 1 := by omega
    have h3 : 2 * (m &&& (m - 1)) / 2 = m &&& (m - 1) := by omega
    rw [h1, h2, h3, Nat.testBit_land]

/-- Bit identity behind `isPowerOfTwo`: an odd number above 1 fails
the `n & (n-1)` test. -/
theorem land_succ_two_mul (m : Nat) : (2 * m + 1) &&& (2 * m) = 2 * m := by
  apply Nat.eq_of_testBit_eq
  intro i
  cases i with
  | zero =>
    rw [Nat.testBit_land, Nat.testBit_zero, Nat.testBit_zero]
    have h1 : (2 * m + 1) % 2 = 1 := by omega
    have h2 : 2 * m % 2 = 0 := by omega
    simp [h1, h2]
  | succ i =>
    rw [Nat.testBit_land, Nat.testBit_succ, Nat.testBit_succ]
    have h1 : (2 * m + 1) / 2 = m := by omega
    have h2 : 2 * m / 2 = m := by omega
    rw [h1, h2, Bool.and_self]

/-- For positive `n` the validity test reduces to the bit test. -/
theorem isPowerOfTwo_eq_true_iff (n : Nat) (hn : 0 < n) :
    isPowerOfTwo n = true ↔ n &&& (n - 1) = 0 := by
  simp [isPowerOfTwo, hn]

/-- `Cache::isPowerOfTwo` recognizes exactly the powers of two. -/
theorem isPowerOfTwo_iff : ∀ n : Nat, isPowerOfTwo n = true ↔ ∃ k, n = 2 ^ k := by
  intro n
  induction n using Nat.strong_induction_on with
  | _ n ih =>
    rcases Nat.lt_or_ge n 2 with h2 | h2
    · match n, h2 with
      | 0, _ =>
        constructor
        · intro h
          exact absurd h (by decide)
        · rintro ⟨k, hk⟩
          have := Nat.one_le_two_pow (n := k)
          omega
      | 1, _ =>
        constructor
        · intro _
          exact ⟨0, rfl⟩
        · intro _
          decide
    · rcases Nat.even_or_odd n with he | ho
      · obtain ⟨m, hm⟩ := he
        have hm1 : 0 < m := by omega
        have hn2 : n = 2 * m := by omega
        subst hn2
        rw [isPowerOfTwo_eq_true_iff _ (by omega), land_two_mul_pred m hm1]
        constructor
        · intro h
          have hm0 : m &&& (m - 1) = 0 := by omega
          obtain ⟨k, hk⟩ :=
            (ih m (by omega)).mp ((isPowerOfTwo_eq_true_iff m hm1).mpr hm0)
          refine ⟨k + 1, ?_⟩
          have := pow_succ 2 k
          omega
        · rintro ⟨k, hk⟩
          match k with
          | 0 => omega
          | j + 1 =>
            have hps : 2 ^ (j + 1) = 2 ^ j * 2 := pow_succ 2 j
            have hmj : m = 2 ^ j := by omega
            have hm0 :=
              (isPowerOfTwo_eq_true_iff m hm1).mp ((ih m (by omega)).mpr ⟨j, hmj⟩)
            omega
      · obtain ⟨m, hm⟩ := ho
        have hm1 : 0 < m := by omega
        subst hm
        rw [isPowerOfTwo_eq_true_iff _ (by omega)]
        have key : (2 * m + 1) &&& (2 * m + 1 - 1) = 2 * m := by
          rw [Nat.add_sub_cancel]
          exact land_succ_two_mul m
        constructor
        · intro h
          omega
        · rintro ⟨k, hk⟩
          match k with
          | 0 => omega
          | j + 1 =>
            have hps : 2 ^ (j + 1) = 2 ^ j * 2 := pow_succ 2 j
            omega

/-- `Cache::isPolicyValid` in terms of the five intrinsic constraints. -/
theorem isPolicyValid_iff (p : Policy) :
    isPolicyValid p = true ↔
      ((∃ k, p.cacheSize = 2 ^ k) ∧ (∃ k, p.blockSize = 2 ^ k) ∧
        p.blockSize ∣ p.cacheSize ∧ p.blockNum * p.blockSize = p.cacheSize ∧
        p.associativity ∣ p.blockNum) := by
  unfold isPolicyValid
  simp only [Bool.and_eq_true, beq_iff_eq, isPowerOfTwo_iff]
  constructor
  · rintro ⟨⟨⟨⟨h1, h2⟩, h3⟩, h4⟩, h5⟩
    exact ⟨h1, h2, Nat.dvd_of_mod_eq_zero h3, h4, Nat.dvd_of_mod_eq_zero h5⟩
  · rintro ⟨h1, h2, h3, h4, h5⟩
    exact ⟨⟨⟨⟨h1, h2⟩, Nat.mod_eq_zero_of_dvd h3⟩, h4⟩,
      Nat.mod_eq_zero_of_dvd h5⟩

/-- C8: cache construction fails exactly when the policy violates one
of the five constraints (cacheSize a power of two, blockSize a power
of two, blockSize dividing cacheSize, blockNum * blockSize =
cacheSize, associativity dividing blockNum); when all five hold it
succeeds with the freshly initialized state: all blocks invalid and
all statistics zero. -/
theorem policy_validation_spec (p : Policy) (wb wa : Bool) :
    (okB (mkCache p wb wa) = false ↔
      ¬((∃ k, p.cacheSize = 2 ^ k) ∧ (∃ k, p.blockSize = 2 ^ k) ∧
        p.blockSize ∣ p.cacheSize ∧ p.blockNum * p.blockSize = p.cacheSize ∧
        p.associativity ∣ p.blockNum)) ∧
    ((∃ k, p.cacheSize = 2 ^ k) → (∃ k, p.blockSize = 2 ^ k) →
      p.blockSize ∣ p.cacheSize → p.blockNum * p.blockSize = p.cacheSize →
      p.associativity ∣ p.blockNum →
      mkCache p wb wa = .ok (initState p wb wa) ∧
      (∀ i, ((initState p wb wa).blocks i).valid = false) ∧
      (initState p wb wa).statistics = ⟨0, 0, 0, 0, 0⟩) := by
  constructor
  · constructor
    · intro h hc
      have hv : isPolicyValid p = true := (isPolicyValid_iff p).mpr hc
      rw [mkCache, if_pos hv] at h
      simp [okB] at h
    · intro hc
      cases hv : isPolicyValid p with
      | true => exact absurd ((isPolicyValid_iff p).mp hv) hc
      | false => rw [mkCache, if_neg (by simp [hv])]; rfl
  · intro h1 h2 h3 h4 h5
    have hv : isPolicyValid p = true := (isPolicyValid_iff p).mpr ⟨h1, h2, h3, h4, h5⟩
    exact ⟨by rw [mkCache, if_pos hv], fun i => rfl, rfl⟩

theorem policy_validation_spec_witness :
    (okB (mkCache ⟨64, 64, 1, 2, 1, 1⟩ true true) = false) ∧
    (mkCache ⟨64, 64, 1, 1, 1, 1⟩ true true
        = .ok (initState ⟨64, 64, 1, 1, 1, 1⟩ true true) ∧
      (∀ i, ((initState ⟨64, 64, 1, 1, 1, 1⟩ true true).blocks i).valid = false) ∧
      (initState ⟨64, 64, 1, 1, 1, 1⟩ true true).statistics = ⟨0, 0, 0, 0, 0⟩) :=
  ⟨(policy_validation_spec ⟨64, 64, 1, 2, 1, 1⟩ true true).1.mpr
      (fun hc => absurd hc.2.2.2.2 (by decide)),
    (policy_validation_spec ⟨64, 64, 1, 1, 1, 1⟩ true true).2
      ⟨6, rfl⟩ ⟨6, rfl⟩ ⟨1, rfl⟩ rfl ⟨1, rfl⟩⟩

end CacheSim
